import Mathlib

/-!
Verification of the Meri reconciliation engine against its specification.

This file gives a shallow embedding of the reconciliation / synchronization
core of the Meri news pipeline (files `meri/lautta.py`, `meri/rahti.py`,
`meri/abc.py`, `meri/suola.py`, `meri/discovery/_registry.py`,
`meri/__main__.py`) and proves or refutes the specified properties.

Modelling conventions:
- timestamps (`datetime`) are modelled as `Nat`; the value `0` plays the
  role of `datetime.min` (the minimal timezone-aware datetime), which the
  source uses as a fallback for missing timestamps;
- Python dictionaries whose iteration order is never observed are modelled
  as functions into `Option`;
- Python `or` on strings (where the empty string is falsy) is modelled
  explicitly; enum members are always truthy in Python, so `x or y` on a
  required enum field is just `x`;
- `list(set(a) | set(b))` has an unspecified element order in Python; it is
  modelled by a concrete representative (`(a ++ b).dedup`) and properties
  about it are stated up to set equality.
-/

namespace Meri

/-- Timestamps; `0` stands for `datetime.min` with UTC timezone. -/
abbrev Time := Nat

/-- Enum `LinkLabel` from `meri/abc.py`. -/
inductive LinkLabel where
  | linkCanonical
  | linkMoved
  | linkAlternate
deriving DecidableEq, Repr

/-- Enum `ClickbaitScale` from `meri/abc.py` (5 levels). -/
inductive ClickbaitScale where
  | none_
  | low
  | moderate
  | high
  | extreme
deriving DecidableEq, Repr

/-- Enum `ArticleLabels` from `meri/abc.py`. -/
inductive ArticleLabels where
  | paywalled
  | sponsored
deriving DecidableEq, Repr

/-- Enum `ArticleTypeLabels` from `meri/abc.py`. -/
inductive ArticleTypeLabels where
  | typeArticle
  | typeAnalysis
  | typeFeature
  | typeOpinion
  | typeReview
  | typeCorrection
  | typePressRelease
  | typeAdvertisement
  | typeAnnouncement
deriving DecidableEq, Repr

/-- The union type `ArticleLabels | ArticleTypeLabels` used for
`RahtiEntry.labels` in `meri/rahti.py`. -/
abbrev EntryLabel := Sum ArticleLabels ArticleTypeLabels

/-- `RahtiUrl` from `meri/rahti.py`: a stored URL signature with labels. -/
structure RahtiUrl where
  sign : String
  labels : List LinkLabel
deriving DecidableEq, Repr

/-- `RahtiEntry` from `meri/rahti.py`. `updated` is required; `outlet` is
`str | None`. -/
structure RahtiEntry where
  updated : Time
  urls : List RahtiUrl
  title : String
  clickbaitiness : ClickbaitScale
  labels : List EntryLabel
  outlet : Option String
deriving DecidableEq, Repr

instance : Inhabited RahtiEntry :=
  ⟨{ updated := 0, urls := [], title := "", clickbaitiness := .none_,
     labels := [], outlet := none }⟩

/-- `RahtiData` from `meri/rahti.py`. The `status` and `schema_version`
fields have singleton `Literal` types ("ok" and "0.1.0"); they carry no
information and are re-introduced at the wire level for serialization. -/
structure RahtiData where
  updated : Time
  entries : List RahtiEntry
deriving DecidableEq, Repr

/-- Stub article URL as seen by the matching code (`meri/abc.py`
`ArticleUrl`): matching only ever reads the computed `signature` field, so
the model carries the computed value. -/
structure ArticleUrl where
  signature : String
deriving DecidableEq, Repr

/-- `Article` from `meri/article.py`, restricted to the fields that the
reconciliation engine reads: URL list and the two optional timestamps. -/
structure Article where
  urls : List ArticleUrl
  created_at : Option Time
  updated_at : Option Time
deriving DecidableEq, Repr

/-- Python `a or b` on `Option String` operands where both `None` and the
empty string are falsy (used for `entry.outlet or old_entry.outlet`). -/
def pyOrStr (a b : Option String) : Option String :=
  match a with
  | some s => if s = "" then b else some s
  | none => b

/-- One inner loop of `RahtiCleaner.__init__` / `insert` / `replace`:
`for url in urls: if url.sign not in map: map[url.sign] = idx`. -/
def addEntrySigns (idx : Nat) (urls : List RahtiUrl) (m : String → Option Nat) :
    String → Option Nat :=
  match urls with
  | [] => m
  | u :: rest =>
      addEntrySigns idx rest
        (if (m u.sign).isSome then m
         else fun k => if k = u.sign then some idx else m k)

/-- The indexed outer loop of `RahtiCleaner.__init__`. -/
def buildMapAux (idx : Nat) (es : List RahtiEntry) (m : String → Option Nat) :
    String → Option Nat :=
  match es with
  | [] => m
  | e :: rest => buildMapAux (idx + 1) rest (addEntrySigns idx e.urls m)

/-- Signature-to-entry-index lookup map built by `RahtiCleaner.__init__`:
the first entry owning a signature wins. -/
def buildMap (es : List RahtiEntry) : String → Option Nat :=
  buildMapAux 0 es (fun _ => none)

/-- `RahtiCleaner` state from `meri/lautta.py`: the lookup map plus the
wrapped `RahtiData`. -/
structure RahtiCleaner where
  map : String → Option Nat
  rahti : RahtiData

/-- `RahtiCleaner.__init__`. -/
def mkCleaner (d : RahtiData) : RahtiCleaner :=
  { map := buildMap d.entries, rahti := d }

/-- `RahtiCleaner.find`: first URL signature of the entry present in the
map wins; `none` models the source's `-1`. -/
def RahtiCleaner.find (s : RahtiCleaner) (e : RahtiEntry) : Option Nat :=
  e.urls.findSome? (fun u => s.map u.sign)

/-- `RahtiCleaner.find_by_article`: first article URL whose signature is in
the map determines the matched entry. -/
def RahtiCleaner.findByArticle (s : RahtiCleaner) (a : Article) : Option RahtiEntry :=
  (a.urls.findSome? (fun u => s.map u.signature)).bind
    (fun i => s.rahti.entries[i]?)

/-- `RahtiCleaner._mark_updated`:
`rahti.updated = max(datetime.min, rahti.updated, entry.updated)`. -/
def markUpdated (d : RahtiData) (e : RahtiEntry) : RahtiData :=
  { d with updated := max (max 0 d.updated) e.updated }

/-- `RahtiCleaner.replace` from `meri/lautta.py`. Returns the new state and
the replaced old entry (`none` when no match was found).

Note the translated merge loop for URLs: the source computes
`existing_signs` from `old_entry.urls` and then iterates `old_entry.urls`
itself, so the membership test is satisfied for every iterated URL and
nothing is ever appended; the translation preserves this literally. -/
def RahtiCleaner.replace (s : RahtiCleaner) (entry : RahtiEntry) :
    RahtiCleaner × Option RahtiEntry :=
  match s.find entry with
  | none => (s, none)
  | some idx =>
      let old := s.rahti.entries.getD idx default
      -- remove old references
      let oldSigns := old.urls.map (fun u => u.sign)
      let m1 : String → Option Nat :=
        fun k => if k ∈ oldSigns then none else s.map k
      -- merge data; `entry.updated or minimum_date` is just `entry.updated`
      -- because a required datetime is always truthy, likewise for the
      -- clickbaitiness enum member
      let merged : RahtiEntry :=
        { updated := max entry.updated old.updated
          title := if entry.title = "" then old.title else entry.title
          labels := (old.labels ++ entry.labels).dedup
          clickbaitiness := entry.clickbaitiness
          outlet := pyOrStr entry.outlet old.outlet
          urls := entry.urls ++
            old.urls.filter (fun u => ¬ u.sign ∈ oldSigns) }
      let entries' := s.rahti.entries.set idx merged
      let m2 := addEntrySigns idx merged.urls m1
      ({ map := m2,
         rahti := markUpdated { s.rahti with entries := entries' } merged },
       some old)

/-- `RahtiCleaner.insert`: append, index the new entry's signatures, mark
the dataset updated. -/
def RahtiCleaner.insert (s : RahtiCleaner) (entry : RahtiEntry) :
    RahtiCleaner × RahtiEntry :=
  let entries' := s.rahti.entries ++ [entry]
  let idx := entries'.length - 1
  ({ map := addEntrySigns idx entry.urls s.map,
     rahti := markUpdated { s.rahti with entries := entries' } entry },
   entry)

/-- `RahtiCleaner.upsert`: replace when `find` succeeds, insert otherwise. -/
def RahtiCleaner.upsert (s : RahtiCleaner) (entry : RahtiEntry) :
    RahtiCleaner × Option RahtiEntry :=
  match s.find entry with
  | some _ => s.replace entry
  | none =>
      let r := s.insert entry
      (r.1, some r.2)

/-- `RahtiCleaner.needs_updating` from `meri/lautta.py`. A missing
timestamp falls back to `datetime.min`, modelled by `Option.getD 0`. -/
def RahtiCleaner.needsUpdating (s : RahtiCleaner) (a : Article) : Bool :=
  if a.updated_at.isNone && a.created_at.isNone then true
  else
    match s.findByArticle a with
    | none => true
    | some e =>
        decide (max (a.updated_at.getD 0) (a.created_at.getD 0) > e.updated)

/-- The article shares a URL signature with some persisted entry
(structural form of "a persisted entry matches the article"). -/
def sharesSignature (d : RahtiData) (a : Article) : Prop :=
  ∃ u ∈ a.urls, ∃ e ∈ d.entries, ∃ ru ∈ e.urls, ru.sign = u.signature

instance (d : RahtiData) (a : Article) : Decidable (sharesSignature d a) := by
  unfold sharesSignature; infer_instance

/-! Pruning (`prune_rahti` in `meri/lautta.py`) and its source
configuration. -/

/-- `NewsSource` from `meri/settings/newssources.py`, restricted to the
fields pruning reads. -/
structure NewsSource where
  name : Option String
  enabled : Bool
  max_age_days : Option Nat
  max_num_articles : Option Nat
deriving DecidableEq, Repr

/-- The dict comprehension
`source_map = (source.name: source for source in sources if source.name and source.enabled)`:
later sources with the same name overwrite earlier ones; a source whose
name is `None` or empty is skipped. -/
def sourceMap (sources : List NewsSource) : String → Option NewsSource :=
  sources.foldl
    (fun m s =>
      match s.name with
      | some nm =>
          if nm ≠ "" ∧ s.enabled then
            (fun k => if k = nm then some s else m k)
          else m
      | none => m)
    (fun _ => none)

/-- Emptiness test `if not source_map` of the dict above. -/
def hasEnabledNamed (sources : List NewsSource) : Bool :=
  sources.any (fun s =>
    (match s.name with
     | some nm => nm != ""
     | none => false) && s.enabled)

/-- First pass of `prune_rahti`: skip entries without an outlet, with an
outlet that is not a key of the source map, or (when the source sets
`max_age_days`) strictly older than `now - max_age_days`. Timestamps are
compared in `Int` so that the cutoff may lie below the minimal time. -/
def prunePass1 (now : Int) (smap : String → Option NewsSource) :
    List RahtiEntry → List RahtiEntry
  | [] => []
  | e :: rest =>
      match e.outlet with
      | none => prunePass1 now smap rest
      | some o =>
          if o = "" then prunePass1 now smap rest
          else
            match smap o with
            | none => prunePass1 now smap rest
            | some src =>
                match src.max_age_days with
                | none => e :: prunePass1 now smap rest
                | some d =>
                    if (e.updated : Int) < now - (d : Int) then
                      prunePass1 now smap rest
                    else e :: prunePass1 now smap rest

/-- Insert into a weight-descending list after every element of greater or
equal key: the effect of appending an element and re-running Python's
stable `sort(key=..., reverse=True)`. -/
def insertDescBy {α β : Type} [LinearOrder β] (key : α → β) (x : α) :
    List α → List α
  | [] => [x]
  | y :: rest =>
      if key x ≤ key y then y :: insertDescBy key x rest
      else x :: y :: rest

/-- Python's stable descending sort by a key (`sorted(..., key=...,
reverse=True)` / `list.sort(key=..., reverse=True)`): a left-to-right
stable insertion sort, extensionally equal to timsort because both are
stable. -/
def pySortDescBy {α β : Type} [LinearOrder β] (key : α → β) (l : List α) :
    List α :=
  l.foldl (fun acc x => insertDescBy key x acc) []

/-- Append an indexed entry to its outlet's bucket, preserving first-seen
key order: one step of filling the insertion-ordered
`defaultdict(list)` `entries_by_source`. -/
def groupUpd (o : String) (ie : Nat × RahtiEntry) :
    List (String × List (Nat × RahtiEntry)) →
      List (String × List (Nat × RahtiEntry))
  | [] => [(o, [ie])]
  | (k, l) :: rest =>
      if k = o then (k, l ++ [ie]) :: rest
      else (k, l) :: groupUpd o ie rest

/-- Grouping key: the entry's outlet. Post pass 1 the outlet is a
non-empty string; `getD ""` stands for the impossible missing case. -/
def outletKey (ie : Nat × RahtiEntry) : String :=
  ie.2.outlet.getD ""

/-- The insertion-ordered grouping of indexed entries by outlet built by
the second pass of `prune_rahti`. -/
def groupByOutlet (l : List (Nat × RahtiEntry)) :
    List (String × List (Nat × RahtiEntry)) :=
  l.foldl (fun g ie => groupUpd (outletKey ie) ie g) []

/-- Indices kept by one outlet's bucket: with a configured
`max_num_articles` cap, the first `n` of the stable descending sort by
`updated`; with no cap, all of them; an outlet missing from the source map
contributes nothing (`continue`). -/
def perGroupKeep (smap : String → Option NewsSource)
    (kv : String × List (Nat × RahtiEntry)) : List Nat :=
  match smap kv.1 with
  | none => []
  | some src =>
      match src.max_num_articles with
      | some n =>
          ((pySortDescBy (fun ie => ie.2.updated) kv.2).take n).map Prod.fst
      | none => kv.2.map Prod.fst

/-- The `indices_to_keep` set of `prune_rahti`, as a list (only
membership is observed). -/
def keepIndices (smap : String → Option NewsSource)
    (groups : List (String × List (Nat × RahtiEntry))) : List Nat :=
  groups.foldl (fun acc kv => acc ++ perGroupKeep smap kv) []

/-- Second pass of `prune_rahti`: group surviving entries by outlet, keep
per outlet the newest `max_num_articles` (all, when no cap), and emit
survivors in original order. -/
def prunePass2 (smap : String → Option NewsSource)
    (filtered : List RahtiEntry) : List RahtiEntry :=
  let indexed := filtered.enum
  let keep := keepIndices smap (groupByOutlet indexed)
  (indexed.filter (fun ie => decide (ie.1 ∈ keep))).map Prod.snd

/-- `prune_rahti` from `meri/lautta.py`: empty source map short-circuits
to the empty list, otherwise the two passes run in sequence. -/
def pruneRahti (now : Int) (rahti : List RahtiEntry)
    (sources : List NewsSource) : List RahtiEntry :=
  if hasEnabledNamed sources then
    prunePass2 (sourceMap sources) (prunePass1 now (sourceMap sources) rahti)
  else []

/-- Specification predicate for C3, phrased as the claim reads: an entry
is kept by the first pass iff its outlet names an enabled configured
source and, when that source sets `max_age_days`, the entry's `updated` is
at or after `now - max_age_days`. -/
def pass1Keep (now : Int) (sources : List NewsSource) (e : RahtiEntry) :
    Bool :=
  match e.outlet with
  | none => false
  | some o =>
      match sourceMap sources o with
      | none => false
      | some src =>
          match src.max_age_days with
          | none => true
          | some d => decide ((e.updated : Int) ≥ now - (d : Int))

/-- Specification predicate for C4, phrased as the claim reads: an
indexed survivor of pass 1 is kept by the second pass iff, when its
outlet's source caps the entry count at `n`, it is among the first `n` of
the stable descending sort (by `updated`, ties by original position) of
the survivors sharing its outlet; entries of outlets without a cap are
kept unconditionally. -/
def pass2Keep (smap : String → Option NewsSource)
    (indexed : List (Nat × RahtiEntry)) (ie : Nat × RahtiEntry) : Bool :=
  match smap (outletKey ie) with
  | none => true
  | some src =>
      match src.max_num_articles with
      | some n =>
          decide (ie ∈ (pySortDescBy (fun je => je.2.updated)
            (indexed.filter (fun je =>
              decide (outletKey je = outletKey ie)))).take n)
      | none => true


/-- Concrete dataset for the C2 witness: one persisted entry with
signature "abc" updated at time 10 (the spec's concrete scenario). -/
def c2Data : RahtiData :=
  { updated := 10,
    entries := [{ updated := 10, urls := [⟨"abc", []⟩], title := "A",
                  clickbaitiness := .low, labels := [],
                  outlet := some "x" }] }

/-- An enabled source named "S" with a three-day age cap, used by the C3
witness. -/
def c3SrcS : NewsSource :=
  { name := some "S", enabled := true, max_age_days := some 3,
    max_num_articles := none }

/-- Source list for the C3 witness: the enabled "S" plus a disabled "D". -/
def c3Srcs : List NewsSource :=
  [c3SrcS,
   { name := some "D", enabled := false, max_age_days := none,
     max_num_articles := none }]

/-- Entry fixture for C3: outlet and updated time. -/
def c3Entry (o : Option String) (t : Time) : RahtiEntry :=
  { updated := t, urls := [], title := "t", clickbaitiness := .low,
    labels := [], outlet := o }

/-- Entry list for the C3 witness: one entry exactly at the age boundary,
one just past it, one from the disabled source, one with no outlet. -/
def c3Entries : List RahtiEntry :=
  [c3Entry (some "S") 3, c3Entry (some "S") 2, c3Entry (some "D") 100,
   c3Entry none 100]

/-- Source list for the C4 witness: one enabled source capped at two
entries. -/
def c4Srcs : List NewsSource :=
  [{ name := some "S", enabled := true, max_age_days := none,
     max_num_articles := some 2 }]

/-- Entry list for the C4 witness: three entries of outlet "S", two of
them tied on `updated`. -/
def c4Entries : List RahtiEntry :=
  [c3Entry (some "S") 5, c3Entry (some "S") 7, c3Entry (some "S") 5]

/-! The three bounded-concurrency phases of `meri/lautta.py`. Each phase
submits one future per item and then collects results in submission
order, so a phase is a function of the per-item outcomes; thread
interleaving is unobservable. -/

/-- Outcome of one worker invocation: what `future.result()` yields — the
returned value or the exception raised inside the worker. -/
inductive PyResult (ε α : Type) where
  | ok (a : α)
  | raised (e : ε)
deriving DecidableEq, Repr

/-- Per-source discovery phase `fetch_latest`: each enabled source's
future yields a list of articles or an exception; the collection loop
wraps `future.result()` in try/except, logging and skipping failures and
extending the result with (source, article) pairs otherwise. -/
def fetchLatestPhase {σ α ε : Type}
    (outcomes : List (σ × PyResult ε (List α))) : List (σ × α) :=
  outcomes.foldl
    (fun acc so =>
      match so.2 with
      | .ok arts => acc ++ arts.map (fun a => (so.1, a))
      | .raised _ => acc)
    []

/-- Per-article full-content fetch phase `fetch_full_articles` (after the
shuffle, which only permutes the input): each future's result is awaited
under try/except; a failure is logged and the item dropped. -/
def fetchFullPhase {α ε : Type} (outcomes : List (PyResult ε α)) :
    List α :=
  outcomes.foldl
    (fun acc r =>
      match r with
      | .ok a => acc ++ [a]
      | .raised _ => acc)
    []

/-- Per-article title generation `generate_titles`: the collection loop
calls `future.result()` with no try/except, so the first exception in
submission order propagates out of the phase. -/
def generateTitlesPhase {α ε : Type} :
    List (PyResult ε α) → PyResult ε (List α)
  | [] => .ok []
  | .ok a :: rest =>
      match generateTitlesPhase rest with
      | .ok res => .ok (a :: res)
      | .raised e => .raised e
  | .raised e :: _ => .raised e

/-- Whether a worker outcome is a normal return. -/
def PyResult.isOk {ε α : Type} : PyResult ε α → Bool
  | .ok _ => true
  | .raised _ => false

/-- `hash_url` from `meri/suola.py`: `str(url).strip()` is fed to the
Suola hasher (an external library, modelled as a parameter). A falsy
result is logged and returned as-is; an exception raised by the hasher is
logged, recorded on the span, and re-raised. -/
def hashUrl {ε : Type} (hasher : String → PyResult ε (Option String))
    (url : String) : PyResult ε (Option String) :=
  hasher url.trim

/-- The computed `ArticleUrl.signature` property from `meri/abc.py`:
the empty string for a falsy `href` (modelled by `none`), otherwise
`hash_url`'s value with a falsy result collapsed to the empty string; an
exception from `hash_url` propagates. -/
def signature {ε : Type} (hasher : String → PyResult ε (Option String))
    (href : Option String) : PyResult ε String :=
  match href with
  | none => .ok ""
  | some u =>
      match hashUrl hasher u with
      | .raised e => .raised e
      | .ok sign =>
          .ok (match sign with
               | some s => if s = "" then "" else s
               | none => "")

/-- A hasher that always raises, for the C6 counterexample. -/
def alwaysRaise : String → PyResult Unit (Option String) :=
  fun _ => .raised ()

/-- A total hasher fixture for the C6 witness. -/
def hashFix : String → PyResult Unit (Option String) :=
  fun _ => .ok (some "hx")

/-! Serialization of the persisted dataset (`meri/rahti.py`). The wire
level models the JSON document produced by pydantic's `model_dump_json`:
enums become their value strings, a datetime becomes its ISO 8601 text
(pydantic's datetime codec is lossless on its own output, so the
timestamp is carried verbatim), and field order and indentation are fixed,
so two equal wire values print to identical bytes and distinct wire
values differ. `model_validate_json` is JSON parsing followed by field
validation, modelled by the parse functions below. -/

/-- Wire form of `RahtiUrl`. -/
structure WireUrl where
  sign : String
  labels : List String
deriving DecidableEq, Repr

/-- Wire form of `RahtiEntry`. -/
structure WireEntry where
  updated : Time
  urls : List WireUrl
  title : String
  clickbaitiness : String
  labels : List String
  outlet : Option String
deriving DecidableEq, Repr

/-- Wire form of `RahtiData`, including the two `Literal` fields. -/
structure WireData where
  status : String
  schema_version : String
  updated : Time
  entries : List WireEntry
deriving DecidableEq, Repr

/-- Value string of a `LinkLabel`. -/
def LinkLabel.toWire : LinkLabel → String
  | .linkCanonical => "com.github.klikkikuri/link-rel=canonical"
  | .linkMoved => "com.github.klikkikuri/link-rel=moved"
  | .linkAlternate => "com.github.klikkikuri/link-rel=alternate"

/-- Parse a `LinkLabel` from its value string. -/
def linkLabelOfWire (s : String) : Option LinkLabel :=
  if s = "com.github.klikkikuri/link-rel=canonical" then
    some .linkCanonical
  else if s = "com.github.klikkikuri/link-rel=moved" then some .linkMoved
  else if s = "com.github.klikkikuri/link-rel=alternate" then
    some .linkAlternate
  else none

/-- Value string of a `ClickbaitScale`. -/
def ClickbaitScale.toWire : ClickbaitScale → String
  | .none_ => "Not Clickbait at all"
  | .low => "Slightly Clickbaity"
  | .moderate => "Moderately Clickbaity"
  | .high => "Very Clickbaity"
  | .extreme => "Extremely Clickbaity"

/-- Parse a `ClickbaitScale` from its value string. -/
def clickbaitOfWire (s : String) : Option ClickbaitScale :=
  if s = "Not Clickbait at all" then some .none_
  else if s = "Slightly Clickbaity" then some .low
  else if s = "Moderately Clickbaity" then some .moderate
  else if s = "Very Clickbaity" then some .high
  else if s = "Extremely Clickbaity" then some .extreme
  else none

/-- Value string of an `ArticleLabels`. -/
def ArticleLabels.toWire : ArticleLabels → String
  | .paywalled => "com.github.klikkikuri/paywalled=true"
  | .sponsored => "com.github.klikkikuri/sponsored=true"

/-- Parse an `ArticleLabels` from its value string. -/
def articleLabelsOfWire (s : String) : Option ArticleLabels :=
  if s = "com.github.klikkikuri/paywalled=true" then some .paywalled
  else if s = "com.github.klikkikuri/sponsored=true" then some .sponsored
  else none

/-- Value string of an `ArticleTypeLabels`. -/
def ArticleTypeLabels.toWire : ArticleTypeLabels → String
  | .typeArticle => "com.github.klikkikuri/article-type=article"
  | .typeAnalysis => "com.github.klikkikuri/article-type=analysis"
  | .typeFeature => "com.github.klikkikuri/article-type=feature"
  | .typeOpinion => "com.github.klikkikuri/article-type=opinion"
  | .typeReview => "com.github.klikkikuri/article-type=review"
  | .typeCorrection => "com.github.klikkikuri/article-type=correction"
  | .typePressRelease => "com.github.klikkikuri/article-type=press-release"
  | .typeAdvertisement =>
      "com.github.klikkikuri/article-type=advertisement"
  | .typeAnnouncement => "com.github.klikkikuri/article-type=announcement"

/-- Parse an `ArticleTypeLabels` from its value string. -/
def articleTypeLabelsOfWire (s : String) : Option ArticleTypeLabels :=
  if s = "com.github.klikkikuri/article-type=article" then
    some .typeArticle
  else if s = "com.github.klikkikuri/article-type=analysis" then
    some .typeAnalysis
  else if s = "com.github.klikkikuri/article-type=feature" then
    some .typeFeature
  else if s = "com.github.klikkikuri/article-type=opinion" then
    some .typeOpinion
  else if s = "com.github.klikkikuri/article-type=review" then
    some .typeReview
  else if s = "com.github.klikkikuri/article-type=correction" then
    some .typeCorrection
  else if s = "com.github.klikkikuri/article-type=press-release" then
    some .typePressRelease
  else if s = "com.github.klikkikuri/article-type=advertisement" then
    some .typeAdvertisement
  else if s = "com.github.klikkikuri/article-type=announcement" then
    some .typeAnnouncement
  else none

/-- Value string of an entry label (either enum of the union). -/
def EntryLabel.toWire : EntryLabel → String
  | .inl l => l.toWire
  | .inr l => l.toWire

/-- Parse an entry label: pydantic validates against the union
`ArticleLabels | ArticleTypeLabels` left to right. -/
def entryLabelOfWire (s : String) : Option EntryLabel :=
  match articleLabelsOfWire s with
  | some l => some (.inl l)
  | none =>
      match articleTypeLabelsOfWire s with
      | some l => some (.inr l)
      | none => none

/-- Validate each element, failing when any element fails: the behavior
of pydantic on a list field. -/
def mapOpt {α β : Type} (g : α → Option β) : List α → Option (List β)
  | [] => some []
  | x :: rest =>
      match g x, mapOpt g rest with
      | some y, some ys => some (y :: ys)
      | _, _ => none

/-- Keep the first URL for each signature, in list order (the scan inside
`check_urls_unique`). -/
def dedupBySign (seen : List String) : List RahtiUrl → List RahtiUrl
  | [] => []
  | u :: rest =>
      if u.sign ∈ seen then dedupBySign seen rest
      else u :: dedupBySign (u.sign :: seen) rest

/-- The `check_urls_unique` field validator of `RahtiEntry`
(`meri/rahti.py`): stable-sort the URLs by descending label count, then
keep the first URL for each signature. It runs on every construction or
validation of a `RahtiEntry`. -/
def check_urls_unique (v : List RahtiUrl) : List RahtiUrl :=
  dedupBySign [] (pySortDescBy (fun u => u.labels.length) v)

/-- Normalization performed by constructing a `RahtiEntry` in pydantic:
the urls field validator is applied. -/
def normalizeEntry (e : RahtiEntry) : RahtiEntry :=
  { e with urls := check_urls_unique e.urls }

/-- Normalization performed by constructing a `RahtiData`: every entry is
validated. -/
def normalizeData (d : RahtiData) : RahtiData :=
  { d with entries := d.entries.map normalizeEntry }

/-- `model_dump` of a `RahtiUrl`. -/
def RahtiUrl.modelDump (u : RahtiUrl) : WireUrl :=
  ⟨u.sign, u.labels.map LinkLabel.toWire⟩

/-- `model_dump` of a `RahtiEntry`. -/
def RahtiEntry.modelDump (e : RahtiEntry) : WireEntry :=
  ⟨e.updated, e.urls.map RahtiUrl.modelDump, e.title,
   e.clickbaitiness.toWire, e.labels.map EntryLabel.toWire, e.outlet⟩

/-- `model_dump_json` of a `RahtiData`, at wire level: the two literal
fields are emitted with their fixed values. -/
def RahtiData.modelDump (d : RahtiData) : WireData :=
  ⟨"ok", "0.1.0", d.updated, d.entries.map RahtiEntry.modelDump⟩

/-- Validation of a wire URL. -/
def modelValidateUrl (w : WireUrl) : Option RahtiUrl :=
  (mapOpt linkLabelOfWire w.labels).map (fun ls => ⟨w.sign, ls⟩)

/-- Validation of a wire entry, running the urls field validator. -/
def modelValidateEntry (w : WireEntry) : Option RahtiEntry :=
  match mapOpt modelValidateUrl w.urls, clickbaitOfWire w.clickbaitiness,
      mapOpt entryLabelOfWire w.labels with
  | some us, some cb, some ls =>
      some { updated := w.updated, urls := check_urls_unique us,
             title := w.title, clickbaitiness := cb, labels := ls,
             outlet := w.outlet }
  | _, _, _ => none

/-- `model_validate_json` of a `RahtiData` at wire level: the literal
fields must hold their fixed values and every entry must validate. -/
def modelValidateData (w : WireData) : Option RahtiData :=
  if w.status = "ok" ∧ w.schema_version = "0.1.0" then
    (mapOpt modelValidateEntry w.entries).map
      (fun es => ⟨w.updated, es⟩)
  else none

/-! The discoverer registry (`meri/discovery/_registry.py`). Handler
classes are identified by numbers (the source compares them with `is`);
weights are Python ints. A `register` call with a list of names performs
the single-name registration once per name in order, so events here are
single-name registrations. -/

/-- One single-name registration: key, weight, handler class. -/
structure RegEvent where
  name : String
  weight : Int
  cls : Nat
deriving DecidableEq, Repr

/-- Update the first `(weight, class)` pair holding the class — the
found-existing branch of `register` (the loop breaks after the first
hit). -/
def updFirst (w : Int) (c : Nat) : List (Int × Nat) → List (Int × Nat)
  | [] => []
  | wc :: rest =>
      if wc.2 = c then (w, c) :: rest else wc :: updFirst w c rest

/-- One single-name `register` call: update the class's weight in place
when the class is already registered under the name, append it otherwise,
then re-sort the bucket by descending weight with Python's stable sort. -/
def registerStep (m : String → List (Int × Nat)) (ev : RegEvent) :
    String → List (Int × Nat) :=
  let l := m ev.name
  let l1 :=
    if ev.cls ∈ l.map Prod.snd then updFirst ev.weight ev.cls l
    else l ++ [(ev.weight, ev.cls)]
  let l2 := pySortDescBy Prod.fst l1
  fun k => if k = ev.name then l2 else m k

/-- Apply a sequence of registrations to the empty registry. -/
def applyEvents (evs : List RegEvent) : String → List (Int × Nat) :=
  evs.foldl registerStep (fun _ => [])

/-- `DiscovererRegistry.get`: `None` for a missing or empty bucket, else
the class of the first (highest-weight) pair. -/
def registryGet (m : String → List (Int × Nat)) (name : String) :
    Option Nat :=
  ((m name).head?).map Prod.snd

/-- The registrations that touched a key, in call order. -/
def regsFor (evs : List RegEvent) (k : String) : List (Int × Nat) :=
  evs.filterMap
    (fun ev => if ev.name = k then some (ev.weight, ev.cls) else none)

/-- The first pair of maximal weight, in list order. -/
def firstMaxPair (l : List (Int × Nat)) : Option (Int × Nat) :=
  l.find? (fun wc => l.all (fun wc2 => decide (wc2.1 ≤ wc.1)))

/-- Resolution as the claim words it over one key's registration list:
the handler with the highest weight, ties broken by earliest
registration. -/
def firstMaxClass (l : List (Int × Nat)) : Option Nat :=
  (firstMaxPair l).map Prod.snd

/-- A class's final (most recently registered) weight. -/
def lastWeightOf (l : List (Int × Nat)) (c : Nat) : Int :=
  (((l.filter (fun wc => decide (wc.2 = c))).map Prod.fst).getLast?).getD 0

/-- Deduplicate keeping first occurrences (registration order). -/
def firstOccur (seen : List Nat) : List Nat → List Nat
  | [] => []
  | c :: rest =>
      if c ∈ seen then firstOccur seen rest
      else c :: firstOccur (c :: seen) rest

/-- The claim's "first registered wins" reading over a whole event
sequence: among the classes whose final weight is maximal, the one first
registered under the key. -/
def claimResolve (evs : List RegEvent) (k : String) : Option Nat :=
  let regs := regsFor evs k
  let classes := firstOccur [] (regs.map Prod.snd)
  classes.find? (fun c =>
    classes.all (fun c2 =>
      decide (lastWeightOf regs c2 ≤ lastWeightOf regs c)))

/-! The run controller of `meri/__main__.py` (command `run`). The
collaborators — URL hashing, content extraction
(`trafilatura_extractor` + merge), title prediction — are modelled as
function parameters; the run's observable effects are collected in a
trace record. -/

/-- Article as the old pipeline sees it: href strings and the update
timestamp (`convert_for_publish` requires `updated_at`). -/
structure ArticleO where
  hrefs : List String
  updated_at : Time
deriving DecidableEq, Repr

/-- A stored entry of the old pipeline (`data.json` shape): signature
list, update time, title. -/
structure EntryO where
  signs : List String
  updated : Time
  title : String
deriving DecidableEq, Repr

/-- Title result of the old pipeline. -/
structure TitleO where
  title : String
deriving DecidableEq, Repr

/-- Equality of the two signature sets (`set(...) == set(...)`). -/
def setEq (a b : List String) : Bool :=
  a.all (fun x => decide (x ∈ b)) && b.all (fun x => decide (x ∈ a))

/-- `filter_outdated` from `meri/__main__.py`: the first old entry whose
signature set equals the article's decides — the article is kept iff it
is strictly newer; an article matching no old entry is kept. -/
def filterOutdated (h : String → String) (articles : List ArticleO)
    (oldEntries : List EntryO) : List ArticleO :=
  articles.filter (fun a =>
    match oldEntries.find? (fun e => setEq e.signs (a.hrefs.map h)) with
    | some e => decide (a.updated_at > e.updated)
    | none => true)

/-- `prune_old_entries`: keep entries whose age in days is at most
`maxAgeDays`; time is counted in whole days from an arbitrary epoch. -/
def pruneOldEntries (now : Time) (old : List EntryO) (maxAgeDays : Nat) :
    List EntryO :=
  old.filter (fun e => decide (now - e.updated ≤ maxAgeDays))

/-- `process_titles`: one sequential predictor call per article. -/
def processTitles (titleOf : ArticleO → TitleO)
    (articles : List ArticleO) : List (ArticleO × TitleO) :=
  articles.map (fun a => (a, titleOf a))

/-- `convert_for_publish`: one wire entry per (article, title) pair with
the hashed hrefs as signatures. -/
def convertForPublish (h : String → String)
    (ts : List (ArticleO × TitleO)) : List EntryO :=
  ts.map (fun p =>
    { signs := p.1.hrefs.map h, updated := p.1.updated_at,
      title := p.2.title })

/-- `merge_updates`: each new entry replaces the first old entry (the
signature sets are those of the original old list) sharing a signature
with it, and is appended when none does. -/
def mergeUpdates (old : List EntryO) (news : List EntryO) : List EntryO :=
  let origSigns := old.map (fun e => e.signs)
  news.foldl
    (fun entries n =>
      match origSigns.findIdx?
          (fun s => s.any (fun x => decide (x ∈ n.signs))) with
      | some j => entries.set j n
      | none => entries ++ [n])
    old

/-- Observable effects of one `run` invocation: how many per-article
title predictions ran, whether the push to the persisted store happened,
and with which entries. -/
structure RunTrace where
  titleCalls : Nat
  pushCalled : Bool
  pushedEntries : List EntryO
deriving DecidableEq, Repr

/-- The `run` command of `meri/__main__.py`, on its success path:
discover (input `articles`, after the optional slicing), pull the old
dataset (input `oldEntries`), filter outdated, fetch the full articles,
prune the old entries (max age three days), predict titles, convert, fold
the new entries into the old ones, and push the result unconditionally. -/
def runMain (h : String → String) (extract : ArticleO → ArticleO)
    (titleOf : ArticleO → TitleO) (now : Time)
    (articles : List ArticleO) (oldEntries : List EntryO) : RunTrace :=
  let newArticles := filterOutdated h articles oldEntries
  let fetched := newArticles.map extract
  let oldPruned := pruneOldEntries now oldEntries 3
  let titleData := processTitles titleOf fetched
  let newEntries := convertForPublish h titleData
  let entries := mergeUpdates oldPruned newEntries
  { titleCalls := titleData.length, pushCalled := true,
    pushedEntries := entries }

/-! Lemmas about the signature lookup map. -/

theorem addEntrySigns_eq_none (idx : Nat) (urls : List RahtiUrl)
    (m : String → Option Nat) (k : String) :
    addEntrySigns idx urls m k = none ↔
      m k = none ∧ ∀ u ∈ urls, u.sign ≠ k := by
  induction urls generalizing m with
  | nil => simp [addEntrySigns]
  | cons u rest ih =>
      simp only [addEntrySigns, List.mem_cons]
      rw [ih]
      by_cases h : (m u.sign).isSome
      · simp only [if_pos h]
        constructor
        · rintro ⟨hk, hrest⟩
          refine ⟨hk, ?_⟩
          rintro v (rfl | hv)
          · intro hsk
            rw [hsk] at h
            rw [hk] at h
            simp at h
          · exact hrest v hv
        · rintro ⟨hk, hall⟩
          exact ⟨hk, fun v hv => hall v (Or.inr hv)⟩
      · simp only [if_neg h]
        constructor
        · rintro ⟨hk, hrest⟩
          by_cases hke : k = u.sign
          · simp [hke] at hk
          · simp only [if_neg hke] at hk
            refine ⟨hk, ?_⟩
            rintro v (rfl | hv)
            · exact fun hc => hke hc.symm
            · exact hrest v hv
        · rintro ⟨hk, hall⟩
          have hne : k ≠ u.sign := fun hc => hall u (Or.inl rfl) hc.symm
          refine ⟨?_, fun v hv => hall v (Or.inr hv)⟩
          simp [if_neg hne, hk]

theorem buildMapAux_eq_none (es : List RahtiEntry) (idx : Nat)
    (m : String → Option Nat) (k : String) :
    buildMapAux idx es m k = none ↔
      m k = none ∧ ∀ e ∈ es, ∀ u ∈ e.urls, u.sign ≠ k := by
  induction es generalizing idx m with
  | nil => simp [buildMapAux]
  | cons e rest ih =>
      simp only [buildMapAux, List.mem_cons]
      rw [ih, addEntrySigns_eq_none]
      constructor
      · rintro ⟨⟨hm, he⟩, hrest⟩
        refine ⟨hm, ?_⟩
        rintro e' (rfl | he')
        · exact he
        · exact hrest e' he'
      · rintro ⟨hm, hall⟩
        exact ⟨⟨hm, hall e (Or.inl rfl)⟩, fun e' he' => hall e' (Or.inr he')⟩

theorem addEntrySigns_bound (idx : Nat) (urls : List RahtiUrl)
    (m : String → Option Nat) (k : String) (i : Nat)
    (h : addEntrySigns idx urls m k = some i) :
    m k = some i ∨ i = idx := by
  induction urls generalizing m with
  | nil => exact Or.inl h
  | cons u rest ih =>
      simp only [addEntrySigns] at h
      rcases ih _ h with hm | rfl
      · by_cases hs : (m u.sign).isSome
        · rw [if_pos hs] at hm
          exact Or.inl hm
        · rw [if_neg hs] at hm
          by_cases hk : k = u.sign
          · simp [if_pos hk] at hm
            exact Or.inr hm.symm
          · rw [if_neg hk] at hm
            exact Or.inl hm
      · exact Or.inr rfl

theorem buildMapAux_bound (es : List RahtiEntry) (idx : Nat)
    (m : String → Option Nat) (k : String) (i : Nat)
    (h : buildMapAux idx es m k = some i) :
    m k = some i ∨ (idx ≤ i ∧ i < idx + es.length) := by
  induction es generalizing idx m with
  | nil => exact Or.inl h
  | cons e rest ih =>
      simp only [buildMapAux] at h
      rcases ih _ _ h with hm | ⟨h1, h2⟩
      · rcases addEntrySigns_bound _ _ _ _ _ hm with hm' | rfl
        · exact Or.inl hm'
        · exact Or.inr ⟨Nat.le_refl _, by simp⟩
      · exact Or.inr ⟨Nat.le_of_succ_le h1, by simpa [Nat.succ_add] using h2⟩

theorem buildMap_lt_length (es : List RahtiEntry) (k : String) (i : Nat)
    (h : buildMap es k = some i) : i < es.length := by
  rcases buildMapAux_bound es 0 _ k i h with hc | ⟨_, h2⟩
  · exact absurd hc (by simp)
  · simpa using h2

theorem buildMap_eq_none (es : List RahtiEntry) (k : String) :
    buildMap es k = none ↔ ∀ e ∈ es, ∀ u ∈ e.urls, u.sign ≠ k := by
  rw [show buildMap es = buildMapAux 0 es (fun _ => none) from rfl,
      buildMapAux_eq_none]
  simp

theorem buildMap_some_mem (es : List RahtiEntry) (k : String) (i : Nat)
    (h : buildMap es k = some i) : ∃ e ∈ es, ∃ u ∈ e.urls, u.sign = k := by
  by_contra hc
  push_neg at hc
  rw [(buildMap_eq_none es k).mpr hc] at h
  exact Option.noConfusion h

theorem findByArticle_eq_none (d : RahtiData) (a : Article) :
    (mkCleaner d).findByArticle a = none ↔ ¬ sharesSignature d a := by
  unfold RahtiCleaner.findByArticle mkCleaner
  constructor
  · intro h
    rintro ⟨u, hu, e, he, ru, hru, hsign⟩
    rcases hfs : (a.urls.findSome? fun u => buildMap d.entries u.signature)
      with _ | i
    · rw [List.findSome?_eq_none_iff] at hfs
      have hnone := hfs u hu
      rw [buildMap_eq_none] at hnone
      exact hnone e he ru hru hsign
    · obtain ⟨x, _, hfx⟩ := List.exists_of_findSome?_eq_some hfs
      have hi : i < d.entries.length := buildMap_lt_length _ _ _ hfx
      simp only [hfs, Option.bind_eq_none] at h
      have hnone := h i rfl
      rw [List.getElem?_eq_getElem hi] at hnone
      exact Option.noConfusion hnone
  · intro hn
    rcases hfs : (a.urls.findSome? fun u => buildMap d.entries u.signature)
      with _ | i
    · simp [hfs]
    · exfalso
      obtain ⟨x, hx, hfx⟩ := List.exists_of_findSome?_eq_some hfs
      obtain ⟨e, he, ru, hru, hsign⟩ := buildMap_some_mem _ _ _ hfx
      exact hn ⟨x, hx, e, he, ru, hru, hsign⟩

/-! Claim C1: `RahtiCleaner.replace` and its merge rule. -/

/-- C1. The merge in `RahtiCleaner.replace` handles `updated`, `title` and
`outlet` as specified and returns the old entry, but the URL union is
broken: the loop that should append the old entry's URLs tests membership
of each old URL's signature in the set of the old entry's own signatures,
so no URL is ever appended. At the failing input below the old entry holds
signatures "a" and "b" and the new entry holds only "a"; after `replace`
the stored entry has lost "b" although the claim requires it to be
appended. -/
theorem c1_replace_drops_old_urls :
    let eOld : RahtiEntry :=
      { updated := 1, urls := [⟨"a", []⟩, ⟨"b", []⟩], title := "Old",
        clickbaitiness := .low, labels := [], outlet := some "x" }
    let d : RahtiData := { updated := 0, entries := [eOld] }
    let n : RahtiEntry :=
      { updated := 2, urls := [⟨"a", []⟩], title := "",
        clickbaitiness := .high, labels := [], outlet := none }
    let r := (mkCleaner d).replace n
    -- the merged entry follows the claim on the scalar fields ...
    r.2 = some eOld
    ∧ (r.1.rahti.entries.getD 0 default).updated = 2
    ∧ (r.1.rahti.entries.getD 0 default).title = "Old"
    ∧ (r.1.rahti.entries.getD 0 default).outlet = some "x"
    -- ... but the old URL with signature "b" was not appended:
    ∧ (r.1.rahti.entries.getD 0 default).urls = [⟨"a", []⟩] := by
  decide

/-! Claim C2: `RahtiCleaner.needs_updating`. -/

/-- C2. `needs_updating` returns true when the article has neither
timestamp; otherwise, when no persisted entry shares a URL signature with
the article, it returns true; otherwise it returns true exactly when
`max(updated_at, created_at)` (missing timestamps falling back to the
minimal datetime) is strictly greater than the matched entry's `updated`. -/
theorem c2_needs_updating (d : RahtiData) (a : Article) :
    (a.updated_at = none → a.created_at = none →
      (mkCleaner d).needsUpdating a = true)
    ∧ (¬ sharesSignature d a → (mkCleaner d).needsUpdating a = true)
    ∧ (∀ e, (a.updated_at.isSome ∨ a.created_at.isSome) →
        (mkCleaner d).findByArticle a = some e →
        ((mkCleaner d).needsUpdating a = true ↔
          max (a.updated_at.getD 0) (a.created_at.getD 0) > e.updated)) := by
  refine ⟨?_, ?_, ?_⟩
  · intro h1 h2
    simp [RahtiCleaner.needsUpdating, h1, h2]
  · intro hn
    rw [RahtiCleaner.needsUpdating]
    by_cases hdates : a.updated_at.isNone && a.created_at.isNone
    · rw [if_pos hdates]
    · rw [if_neg hdates, (findByArticle_eq_none d a).mpr hn]
  · intro e hsome hfind
    have hdates : (a.updated_at.isNone && a.created_at.isNone) = false := by
      rcases hsome with h | h <;> simp_all [Option.isSome_iff_ne_none]
    rw [RahtiCleaner.needsUpdating, if_neg (by simp [hdates]), hfind]
    simp

/-- C2 witness: an article matching "abc" with `updated_at` 20 needs
updating; one with `updated_at` 10 does not; one with no timestamps always
does; an unmatched one does. -/
theorem c2_needs_updating_witness :
    (mkCleaner c2Data).needsUpdating
        { urls := [⟨"abc"⟩], created_at := none, updated_at := some 20 }
      = true
    ∧ (mkCleaner c2Data).needsUpdating
        { urls := [⟨"abc"⟩], created_at := none, updated_at := some 10 }
      = false
    ∧ (mkCleaner c2Data).needsUpdating
        { urls := [⟨"abc"⟩], created_at := none, updated_at := none }
      = true
    ∧ (mkCleaner c2Data).needsUpdating
        { urls := [⟨"zzz"⟩], created_at := none, updated_at := some 5 }
      = true := by
  refine ⟨?_, ?_, ?_, ?_⟩
  · exact ((c2_needs_updating c2Data _).2.2
      { updated := 10, urls := [⟨"abc", []⟩], title := "A",
        clickbaitiness := .low, labels := [], outlet := some "x" }
      (Or.inl (by decide)) (by decide)).mpr (by decide)
  · have h := (c2_needs_updating c2Data
      { urls := [⟨"abc"⟩], created_at := none,
        updated_at := some 10 }).2.2
      { updated := 10, urls := [⟨"abc", []⟩], title := "A",
        clickbaitiness := .low, labels := [], outlet := some "x" }
      (Or.inl (by decide)) (by decide)
    cases hb : (mkCleaner c2Data).needsUpdating
        { urls := [⟨"abc"⟩], created_at := none, updated_at := some 10 }
    · rfl
    · exact absurd (h.mp hb) (by decide)
  · exact (c2_needs_updating c2Data _).1 rfl rfl
  · exact (c2_needs_updating c2Data _).2.1 (by decide)

/-! Claim C10: effect of insert / replace / upsert on the dataset's
top-level `updated` timestamp. -/

/-- C10 counterexample. The claim states that after `replace` the
dataset's `updated` equals `max(previous, entry.updated)`. When the
matched old entry's own `updated` exceeds both — here the dataset records
0, the stored entry 5, and the new entry 1 — the code sets the dataset's
`updated` to 5 while the claim demands `max(0, 1) = 1`. -/
theorem c10_counterexample :
    let eOld : RahtiEntry :=
      { updated := 5, urls := [⟨"a", []⟩], title := "T",
        clickbaitiness := .low, labels := [], outlet := none }
    let d : RahtiData := { updated := 0, entries := [eOld] }
    let n : RahtiEntry :=
      { updated := 1, urls := [⟨"a", []⟩], title := "U",
        clickbaitiness := .low, labels := [], outlet := none }
    ((mkCleaner d).replace n).1.rahti.updated = 5
    ∧ max d.updated n.updated = 1 := by
  decide

/-- C10 (amended). After `insert` the dataset's `updated` equals
`max(previous, entry.updated)`; after a successful `replace` it equals
`max(previous, entry.updated, matched old entry's updated)` (the merged
entry's timestamp); a `replace` with no match leaves the state unchanged;
`upsert` behaves as the branch taken; in all cases the dataset's `updated`
never decreases. -/
theorem c10_dataset_updated (s : RahtiCleaner) (e : RahtiEntry) :
    ((s.insert e).1.rahti.updated = max s.rahti.updated e.updated)
    ∧ (∀ idx, s.find e = some idx →
        (s.replace e).1.rahti.updated
          = max s.rahti.updated
              (max e.updated (s.rahti.entries.getD idx default).updated))
    ∧ (s.find e = none → (s.replace e).1 = s)
    ∧ s.rahti.updated ≤ (s.insert e).1.rahti.updated
    ∧ s.rahti.updated ≤ (s.replace e).1.rahti.updated
    ∧ s.rahti.updated ≤ (s.upsert e).1.rahti.updated := by
  have hins : (s.insert e).1.rahti.updated = max s.rahti.updated e.updated := by
    simp [RahtiCleaner.insert, markUpdated]
  have hrep : ∀ idx, s.find e = some idx →
      (s.replace e).1.rahti.updated
        = max s.rahti.updated
            (max e.updated (s.rahti.entries.getD idx default).updated) := by
    intro idx hidx
    simp [RahtiCleaner.replace, hidx, markUpdated]
  have hnone : s.find e = none → (s.replace e).1 = s := by
    intro h
    simp [RahtiCleaner.replace, h]
  refine ⟨hins, hrep, hnone, ?_, ?_, ?_⟩
  · rw [hins]; exact Nat.le_max_left _ _
  · rcases hf : s.find e with _ | idx
    · rw [hnone hf]
    · rw [hrep idx hf]; exact Nat.le_max_left _ _
  · rw [RahtiCleaner.upsert]
    rcases hf : s.find e with _ | idx
    · simp only [hf, hins]
      exact Nat.le_max_left _ _
    · simp only [hf]
      rw [hrep idx hf]
      exact Nat.le_max_left _ _

/-! Lemmas about Python's stable descending sort. -/

theorem insertDescBy_perm {α β : Type} [LinearOrder β] (key : α → β)
    (x : α) (l : List α) : (insertDescBy key x l).Perm (x :: l) := by
  induction l with
  | nil => exact List.Perm.refl _
  | cons y rest ih =>
      rw [insertDescBy]
      by_cases h : key x ≤ key y
      · rw [if_pos h]
        exact (ih.cons y).trans (List.Perm.swap x y rest)
      · rw [if_neg h]

theorem mem_insertDescBy {α β : Type} [LinearOrder β] (key : α → β)
    (x : α) (l : List α) (z : α) :
    z ∈ insertDescBy key x l ↔ z = x ∨ z ∈ l := by
  rw [(insertDescBy_perm key x l).mem_iff]
  simp

theorem pySortDescBy_concat {α β : Type} [LinearOrder β] (key : α → β)
    (l : List α) (x : α) :
    pySortDescBy key (l ++ [x]) = insertDescBy key x (pySortDescBy key l) := by
  rw [pySortDescBy, pySortDescBy, List.foldl_concat]

theorem pySortDescBy_perm {α β : Type} [LinearOrder β] (key : α → β)
    (l : List α) : (pySortDescBy key l).Perm l := by
  induction l using List.reverseRecOn with
  | nil => exact List.Perm.refl _
  | append_singleton xs x ih =>
      rw [pySortDescBy_concat]
      exact ((insertDescBy_perm key x _).trans (ih.cons x)).trans
        (List.perm_append_singleton x xs).symm

theorem insertDescBy_sorted {α β : Type} [LinearOrder β] (key : α → β)
    (x : α) (l : List α) (h : l.Pairwise (fun a b => key b ≤ key a)) :
    (insertDescBy key x l).Pairwise (fun a b => key b ≤ key a) := by
  induction l with
  | nil => simp [insertDescBy]
  | cons y rest ih =>
      rcases List.pairwise_cons.mp h with ⟨hy, hrest⟩
      rw [insertDescBy]
      by_cases hxy : key x ≤ key y
      · rw [if_pos hxy]
        refine List.pairwise_cons.mpr ⟨?_, ih hrest⟩
        intro z hz
        rcases (mem_insertDescBy key x rest z).mp hz with rfl | hzr
        · exact hxy
        · exact hy z hzr
      · rw [if_neg hxy]
        refine List.pairwise_cons.mpr ⟨?_, h⟩
        intro z hz
        rcases List.mem_cons.mp hz with rfl | hzr
        · exact le_of_lt (not_le.mp hxy)
        · exact le_trans (hy z hzr) (le_of_lt (not_le.mp hxy))

theorem pySortDescBy_sorted {α β : Type} [LinearOrder β] (key : α → β)
    (l : List α) :
    (pySortDescBy key l).Pairwise (fun a b => key b ≤ key a) := by
  induction l using List.reverseRecOn with
  | nil => simp [pySortDescBy]
  | append_singleton xs x ih =>
      rw [pySortDescBy_concat]
      exact insertDescBy_sorted key x _ ih

theorem insertDescBy_of_le {α β : Type} [LinearOrder β] (key : α → β)
    (x : α) (l : List α) (h : ∀ y ∈ l, key x ≤ key y) :
    insertDescBy key x l = l ++ [x] := by
  induction l with
  | nil => rfl
  | cons y rest ih =>
      rw [insertDescBy, if_pos (h y (List.mem_cons_self y rest)),
        ih (fun z hz => h z (List.mem_cons_of_mem y hz))]
      rfl

theorem pySortDescBy_of_sorted {α β : Type} [LinearOrder β] (key : α → β)
    (l : List α) (h : l.Pairwise (fun a b => key b ≤ key a)) :
    pySortDescBy key l = l := by
  induction l using List.reverseRecOn with
  | nil => rfl
  | append_singleton xs x ih =>
      rcases List.pairwise_append.mp h with ⟨h1, _, h3⟩
      rw [pySortDescBy_concat, ih h1,
        insertDescBy_of_le key x xs
          (fun y hy => h3 y hy x (List.mem_singleton_self x))]

theorem insertDescBy_stable {α β : Type} [LinearOrder β] (key : α → β)
    (pos : α → Nat) (x : α) (l : List α)
    (hl : l.Pairwise (fun a b =>
      key b < key a ∨ (key b = key a ∧ pos a < pos b)))
    (hx : ∀ y ∈ l, pos y < pos x) :
    (insertDescBy key x l).Pairwise (fun a b =>
      key b < key a ∨ (key b = key a ∧ pos a < pos b)) := by
  induction l with
  | nil => simp [insertDescBy]
  | cons y rest ih =>
      rcases List.pairwise_cons.mp hl with ⟨hy, hrest⟩
      rw [insertDescBy]
      by_cases hxy : key x ≤ key y
      · rw [if_pos hxy]
        refine List.pairwise_cons.mpr
          ⟨?_, ih hrest (fun z hz => hx z (List.mem_cons_of_mem y hz))⟩
        intro z hz
        rcases (mem_insertDescBy key x rest z).mp hz with rfl | hzr
        · rcases lt_or_eq_of_le hxy with hlt | heq
          · exact Or.inl hlt
          · exact Or.inr ⟨heq, hx y (List.mem_cons_self y rest)⟩
        · exact hy z hzr
      · rw [if_neg hxy]
        refine List.pairwise_cons.mpr ⟨?_, hl⟩
        intro z hz
        rcases List.mem_cons.mp hz with rfl | hzr
        · exact Or.inl (not_le.mp hxy)
        · refine Or.inl (lt_of_le_of_lt ?_ (not_le.mp hxy))
          rcases hy z hzr with hlt | ⟨heq, _⟩
          · exact le_of_lt hlt
          · exact le_of_eq heq

theorem pySortDescBy_stable {α β : Type} [LinearOrder β] (key : α → β)
    (pos : α → Nat) (l : List α)
    (h : l.Pairwise (fun a b => pos a < pos b)) :
    (pySortDescBy key l).Pairwise (fun a b =>
      key b < key a ∨ (key b = key a ∧ pos a < pos b)) := by
  induction l using List.reverseRecOn with
  | nil => simp [pySortDescBy]
  | append_singleton xs x ih =>
      rcases List.pairwise_append.mp h with ⟨h1, _, h3⟩
      rw [pySortDescBy_concat]
      refine insertDescBy_stable key pos x _ (ih h1) ?_
      intro y hy
      exact h3 y ((pySortDescBy_perm key xs).mem_iff.mp hy) x
        (List.mem_singleton_self x)

/-! Lemmas about the source map of `prune_rahti`. -/

theorem sourceMap_concat (ss : List NewsSource) (s : NewsSource)
    (k : String) :
    sourceMap (ss ++ [s]) k =
      match s.name with
      | some nm =>
          if nm ≠ "" ∧ s.enabled then
            (if k = nm then some s else sourceMap ss k)
          else sourceMap ss k
      | none => sourceMap ss k := by
  rcases hn : s.name with _ | nm
  · simp only [sourceMap, List.foldl_concat, hn]
  · simp only [sourceMap, List.foldl_concat, hn]
    by_cases hc : nm ≠ "" ∧ s.enabled = true
    · rw [if_pos hc, if_pos hc]
    · rw [if_neg hc, if_neg hc]

theorem sourceMap_some (ss : List NewsSource) (k : String)
    (src : NewsSource) (h : sourceMap ss k = some src) :
    src.enabled = true ∧ src.name = some k ∧ k ≠ "" ∧ src ∈ ss := by
  induction ss using List.reverseRecOn with
  | nil => exact Option.noConfusion h
  | append_singleton ss s ih =>
      rw [sourceMap_concat] at h
      rcases hn : s.name with _ | nm
      · simp only [hn] at h
        rcases ih h with ⟨h1, h2, h3, h4⟩
        exact ⟨h1, h2, h3, List.mem_append_left _ h4⟩
      · simp only [hn] at h
        by_cases hc : nm ≠ "" ∧ s.enabled = true
        · rw [if_pos hc] at h
          by_cases hk : k = nm
          · rw [if_pos hk] at h
            have hsrc : src = s := (Option.some.inj h).symm
            subst hsrc
            exact ⟨hc.2, by rw [hn, hk], by rw [hk]; exact hc.1,
              List.mem_append_right _ (List.mem_singleton_self _)⟩
          · rw [if_neg hk] at h
            rcases ih h with ⟨h1, h2, h3, h4⟩
            exact ⟨h1, h2, h3, List.mem_append_left _ h4⟩
        · rw [if_neg hc] at h
          rcases ih h with ⟨h1, h2, h3, h4⟩
          exact ⟨h1, h2, h3, List.mem_append_left _ h4⟩

theorem sourceMap_none (ss : List NewsSource) (k : String)
    (h : ∀ s ∈ ss, ¬ (s.enabled = true ∧ s.name = some k)) :
    sourceMap ss k = none := by
  induction ss using List.reverseRecOn with
  | nil => rfl
  | append_singleton ss s ih =>
      have hss : ∀ s' ∈ ss, ¬ (s'.enabled = true ∧ s'.name = some k) :=
        fun s' hs' => h s' (List.mem_append_left _ hs')
      have hs := h s (List.mem_append_right _ (List.mem_singleton_self s))
      rw [sourceMap_concat]
      rcases hn : s.name with _ | nm
      · simp only [hn]
        exact ih hss
      · simp only [hn]
        by_cases hc : nm ≠ "" ∧ s.enabled = true
        · rw [if_pos hc]
          by_cases hk : k = nm
          · exact absurd ⟨hc.2, by rw [hn, hk]⟩ hs
          · rw [if_neg hk]
            exact ih hss
        · rw [if_neg hc]
          exact ih hss

theorem sourceMap_empty_str (ss : List NewsSource) :
    sourceMap ss "" = none := by
  rcases h : sourceMap ss "" with _ | src
  · rfl
  · exact absurd (sourceMap_some ss _ _ h).2.2.1 (by simp)

/-! Claim C3: the first pass of `prune_rahti`. -/

/-- C3. The first pass keeps an entry exactly when its outlet names an
enabled configured source and, if that source sets `max_age_days`, the
entry's `updated` is at or after `now - max_age_days` (boundary
inclusive); entries with a missing, unknown, empty or disabled outlet are
dropped regardless of age. The second and third conjuncts tie the source
map to the underlying source list: every hit is an enabled source with
that name, and outlets naming no enabled source miss. -/
theorem c3_prune_pass1 (now : Int) (sources : List NewsSource)
    (entries : List RahtiEntry) :
    prunePass1 now (sourceMap sources) entries
      = entries.filter (pass1Keep now sources)
    ∧ (∀ o src, sourceMap sources o = some src →
        src.enabled = true ∧ src.name = some o ∧ src ∈ sources)
    ∧ (∀ o, (∀ src ∈ sources, ¬ (src.enabled = true ∧ src.name = some o)) →
        sourceMap sources o = none) := by
  refine ⟨?_, ?_, ?_⟩
  · induction entries with
    | nil => rfl
    | cons e rest ih =>
        rw [List.filter_cons]
        rcases ho : e.outlet with _ | o
        · simp [prunePass1, pass1Keep, ho, ih]
        · by_cases ho' : o = ""
          · subst ho'
            simp [prunePass1, pass1Keep, ho, sourceMap_empty_str, ih]
          · rcases hsm : sourceMap sources o with _ | src
            · simp [prunePass1, pass1Keep, ho, ho', hsm, ih]
            · rcases hd : src.max_age_days with _ | d
              · simp [prunePass1, pass1Keep, ho, ho', hsm, hd, ih]
              · by_cases hage : (e.updated : Int) < now - (d : Int)
                · have hge : ¬ ((e.updated : Int) ≥ now - (d : Int)) :=
                    not_le.mpr hage
                  simp [prunePass1, pass1Keep, ho, ho', hsm, hd, hage,
                    hge, ih]
                · have hge : (e.updated : Int) ≥ now - (d : Int) :=
                    not_lt.mp hage
                  simp [prunePass1, pass1Keep, ho, ho', hsm, hd, hage,
                    hge, ih]
  · intro o src h
    rcases sourceMap_some sources o src h with ⟨h1, h2, _, h4⟩
    exact ⟨h1, h2, h4⟩
  · intro o h
    exact sourceMap_none sources o h

/-- C3 witness: with source "S" (enabled, three-day cap) and disabled
source "D", the pass-1 equation holds at `now = 6` on the fixture entries;
"S" resolves to an enabled source with that name; "D" (disabled) resolves
to nothing. -/
theorem c3_prune_pass1_witness :
    prunePass1 6 (sourceMap c3Srcs) c3Entries
      = c3Entries.filter (pass1Keep 6 c3Srcs)
    ∧ (c3SrcS.enabled = true ∧ c3SrcS.name = some "S" ∧ c3SrcS ∈ c3Srcs)
    ∧ sourceMap c3Srcs "D" = none :=
  ⟨(c3_prune_pass1 6 c3Srcs c3Entries).1,
   (c3_prune_pass1 6 c3Srcs c3Entries).2.1 "S" c3SrcS (by decide),
   (c3_prune_pass1 6 c3Srcs c3Entries).2.2 "D" (by decide)⟩

/-! Lemmas about the second pass of `prune_rahti`. -/

theorem keepIndices_eq_flatMap (smap : String → Option NewsSource)
    (g : List (String × List (Nat × RahtiEntry))) :
    keepIndices smap g = g.flatMap (perGroupKeep smap) := by
  suffices h : ∀ (g' : List (String × List (Nat × RahtiEntry)))
      (acc : List Nat),
      g'.foldl (fun acc kv => acc ++ perGroupKeep smap kv) acc
        = acc ++ g'.flatMap (perGroupKeep smap) by
    simpa using h g []
  intro g'
  induction g' with
  | nil => intro acc; simp
  | cons kv rest ih =>
      intro acc
      rw [List.foldl_cons, ih, List.flatMap_cons, List.append_assoc]

theorem groupUpd_inv (o : String) (ie : Nat × RahtiEntry)
    (ho : outletKey ie = o) (l : List (Nat × RahtiEntry))
    (g : List (String × List (Nat × RahtiEntry)))
    (h1 : ∀ kv ∈ g, kv.2 = l.filter (fun je => decide (outletKey je = kv.1)))
    (h2 : (g.map Prod.fst).Nodup)
    (h3 : ∀ je ∈ l, outletKey je = o → o ∈ g.map Prod.fst) :
    (∀ kv ∈ groupUpd o ie g,
      kv.2 = (l ++ [ie]).filter (fun je => decide (outletKey je = kv.1)))
    ∧ ((groupUpd o ie g).map Prod.fst).Nodup
    ∧ (∀ k, k ∈ (groupUpd o ie g).map Prod.fst ↔
        k = o ∨ k ∈ g.map Prod.fst) := by
  induction g with
  | nil =>
      refine ⟨?_, by simp [groupUpd], by intro k; simp [groupUpd]⟩
      intro kv hkv
      rw [groupUpd, List.mem_singleton] at hkv
      subst hkv
      have hl : l.filter (fun je => decide (outletKey je = o)) = [] := by
        rw [List.filter_eq_nil_iff]
        intro je hje
        simp only [decide_eq_true_eq]
        intro hke
        exact absurd (h3 je hje hke) (by simp)
      rw [List.filter_append]
      simp only
      rw [hl]
      simp [ho]
  | cons kv0 rest ih =>
      obtain ⟨k0, lb⟩ := kv0
      have hk0notin : k0 ∉ rest.map Prod.fst := by
        have := h2
        rw [List.map_cons, List.nodup_cons] at this
        exact this.1
      have h2r : (rest.map Prod.fst).Nodup := by
        have := h2
        rw [List.map_cons, List.nodup_cons] at this
        exact this.2
      by_cases hk0 : k0 = o
      · subst hk0
        rw [groupUpd, if_pos rfl]
        refine ⟨?_, by simpa using h2, ?_⟩
        · intro kv hkv
          rcases List.mem_cons.mp hkv with rfl | hkv'
          · have hb := h1 (k0, lb) (List.mem_cons_self _ _)
            simp only at hb ⊢
            rw [List.filter_append, ← hb]
            simp [ho]
          · have hb := h1 kv (List.mem_cons_of_mem _ hkv')
            rw [List.filter_append, ← hb]
            have hne : kv.1 ≠ k0 := by
              intro hc
              exact hk0notin (hc ▸ List.mem_map.mpr ⟨kv, hkv', rfl⟩)
            have hoe : ¬ (outletKey ie = kv.1) := by
              rw [ho]; exact fun hc => hne hc.symm
            have : (([ie] : List (Nat × RahtiEntry)).filter
                (fun je => decide (outletKey je = kv.1))) = [] := by
              simp [hoe]
            rw [this, List.append_nil]
        · intro k
          simp only [List.map_cons, List.mem_cons]
          tauto
      · rw [groupUpd, if_neg hk0]
        have h1r : ∀ kv ∈ rest,
            kv.2 = l.filter (fun je => decide (outletKey je = kv.1)) :=
          fun kv hkv => h1 kv (List.mem_cons_of_mem _ hkv)
        have h3r : ∀ je ∈ l, outletKey je = o → o ∈ rest.map Prod.fst := by
          intro je hje hke
          have := h3 je hje hke
          rw [List.map_cons, List.mem_cons] at this
          rcases this with hx | hx
          · exact absurd hx.symm hk0
          · exact hx
        obtain ⟨ih1, ih2, ih3⟩ := ih h1r h2r h3r
        refine ⟨?_, ?_, ?_⟩
        · intro kv hkv
          rcases List.mem_cons.mp hkv with rfl | hkv'
          · have hb := h1 (k0, lb) (List.mem_cons_self _ _)
            simp only at hb ⊢
            rw [List.filter_append, ← hb]
            have hoe : ¬ (outletKey ie = k0) := by
              rw [ho]; exact fun hc => hk0 hc.symm
            have : (([ie] : List (Nat × RahtiEntry)).filter
                (fun je => decide (outletKey je = k0))) = [] := by
              simp [hoe]
            rw [this, List.append_nil]
          · exact ih1 kv hkv'
        · rw [List.map_cons]
          refine List.nodup_cons.mpr ⟨?_, ih2⟩
          intro hc
          rcases (ih3 k0).mp hc with rfl | hc'
          · exact hk0 rfl
          · exact hk0notin hc'
        · intro k
          rw [List.map_cons, List.mem_cons, ih3, List.map_cons,
            List.mem_cons]
          tauto

theorem groupByOutlet_inv (l : List (Nat × RahtiEntry)) :
    (∀ kv ∈ groupByOutlet l,
      kv.2 = l.filter (fun je => decide (outletKey je = kv.1)))
    ∧ ((groupByOutlet l).map Prod.fst).Nodup
    ∧ (∀ je ∈ l, outletKey je ∈ (groupByOutlet l).map Prod.fst) := by
  induction l using List.reverseRecOn with
  | nil => simp [groupByOutlet]
  | append_singleton xs x ih =>
      obtain ⟨h1, h2, h3⟩ := ih
      have hgc : groupByOutlet (xs ++ [x])
          = groupUpd (outletKey x) x (groupByOutlet xs) := by
        rw [groupByOutlet, groupByOutlet, List.foldl_concat]
      obtain ⟨s1, s2, s3⟩ := groupUpd_inv (outletKey x) x rfl xs
        (groupByOutlet xs) h1 h2
        (fun je hje hke => hke ▸ h3 je hje)
      rw [hgc]
      refine ⟨s1, s2, ?_⟩
      intro je hje
      rcases List.mem_append.mp hje with hje' | hje'
      · exact (s3 (outletKey je)).mpr (Or.inr (h3 je hje'))
      · rw [List.mem_singleton] at hje'
        subst hje'
        exact (s3 (outletKey je)).mpr (Or.inl rfl)

theorem fst_inj_of_pairwise {l : List (Nat × RahtiEntry)}
    (h : l.Pairwise (fun a b => a.1 < b.1)) :
    ∀ a ∈ l, ∀ b ∈ l, a.1 = b.1 → a = b := by
  induction l with
  | nil => intro a ha; exact absurd ha (List.not_mem_nil a)
  | cons x rest ih =>
      rcases List.pairwise_cons.mp h with ⟨hx, hrest⟩
      intro a ha b hb heq
      rcases List.mem_cons.mp ha with rfl | ha' <;>
        rcases List.mem_cons.mp hb with rfl | hb'
      · rfl
      · exact absurd (heq ▸ hx b hb') (lt_irrefl _)
      · exact absurd (heq ▸ hx a ha') (lt_irrefl _)
      · exact ih hrest a ha' b hb' heq

theorem enum_pairwise_fst (l : List RahtiEntry) :
    l.enum.Pairwise (fun a b => a.1 < b.1) := by
  have h := List.pairwise_lt_range l.length
  rw [← List.enum_map_fst l] at h
  exact List.pairwise_map.mp h

theorem snd_mem_of_mem_enum {l : List RahtiEntry}
    {ie : Nat × RahtiEntry} (h : ie ∈ l.enum) : ie.2 ∈ l := by
  have hg := List.mem_enum_iff_getElem?.mp h
  rcases List.getElem?_eq_some.mp hg with ⟨hlt, hget⟩
  exact hget ▸ List.getElem_mem hlt

theorem prunePass1_covered (now : Int) (smap : String → Option NewsSource)
    (entries : List RahtiEntry) :
    ∀ e ∈ prunePass1 now smap entries,
      ∃ o src, e.outlet = some o ∧ o ≠ "" ∧ smap o = some src := by
  induction entries with
  | nil => intro e he; exact absurd he (List.not_mem_nil e)
  | cons e0 rest ih =>
      intro e he
      rcases ho : e0.outlet with _ | o
      · simp only [prunePass1, ho] at he
        exact ih e he
      · simp only [prunePass1, ho] at he
        by_cases ho' : o = ""
        · rw [if_pos ho'] at he
          exact ih e he
        · rw [if_neg ho'] at he
          rcases hsm : smap o with _ | src
          · simp only [hsm] at he
            exact ih e he
          · simp only [hsm] at he
            rcases hd : src.max_age_days with _ | d
            · simp only [hd] at he
              rcases List.mem_cons.mp he with rfl | he'
              · exact ⟨o, src, ho, ho', hsm⟩
              · exact ih e he'
            · simp only [hd] at he
              by_cases hage : (e0.updated : Int) < now - (d : Int)
              · rw [if_pos hage] at he
                exact ih e he
              · rw [if_neg hage] at he
                rcases List.mem_cons.mp he with rfl | he'
                · exact ⟨o, src, ho, ho', hsm⟩
                · exact ih e he'

theorem mem_keepIndices_iff (smap : String → Option NewsSource)
    (filtered : List RahtiEntry)
    (hcov : ∀ e ∈ filtered,
      ∃ o src, e.outlet = some o ∧ o ≠ "" ∧ smap o = some src)
    (ie : Nat × RahtiEntry) (hie : ie ∈ filtered.enum) :
    ie.1 ∈ keepIndices smap (groupByOutlet filtered.enum) ↔
      pass2Keep smap filtered.enum ie = true := by
  obtain ⟨hg1, hg2, hg3⟩ := groupByOutlet_inv filtered.enum
  have hinj := fst_inj_of_pairwise (enum_pairwise_fst filtered)
  rw [keepIndices_eq_flatMap, List.mem_flatMap]
  constructor
  · rintro ⟨kv, hkv, hmem⟩
    rcases hsm : smap kv.1 with _ | src
    · simp only [perGroupKeep, hsm] at hmem
      exact absurd hmem (List.not_mem_nil _)
    · simp only [perGroupKeep, hsm] at hmem
      rcases hcap : src.max_num_articles with _ | n
      · simp only [hcap] at hmem
        rcases List.mem_map.mp hmem with ⟨je, hje, hfst⟩
        have hbucket := hg1 kv hkv
        rw [hbucket] at hje
        have hje_in : je ∈ filtered.enum := (List.mem_filter.mp hje).1
        have hkey : outletKey je = kv.1 := by
          have := (List.mem_filter.mp hje).2
          simpa using this
        have hjeie : je = ie := hinj je hje_in ie hie hfst
        rw [hjeie] at hkey
        simp only [pass2Keep, hkey, hsm, hcap]
      · simp only [hcap] at hmem
        rcases List.mem_map.mp hmem with ⟨je, hje, hfst⟩
        have hbucket := hg1 kv hkv
        have hje_sort : je ∈ pySortDescBy (fun je => je.2.updated) kv.2 :=
          List.mem_of_mem_take hje
        have hje_b : je ∈ kv.2 :=
          (pySortDescBy_perm _ kv.2).mem_iff.mp hje_sort
        rw [hbucket] at hje_b
        have hje_in : je ∈ filtered.enum := (List.mem_filter.mp hje_b).1
        have hkey : outletKey je = kv.1 := by
          have := (List.mem_filter.mp hje_b).2
          simpa using this
        have hjeie : je = ie := hinj je hje_in ie hie hfst
        subst hjeie
        simp only [pass2Keep, hkey, hsm, hcap]
        rw [← hbucket]
        exact decide_eq_true hje
  · intro hpk
    obtain ⟨o, src0, ho, ho', hsm0⟩ := hcov ie.2 (snd_mem_of_mem_enum hie)
    have hko : outletKey ie = o := by simp [outletKey, ho]
    rcases List.mem_map.mp (hg3 ie hie) with ⟨kv, hkv, hkvfst⟩
    refine ⟨kv, hkv, ?_⟩
    have hbucket := hg1 kv hkv
    have hie_b : ie ∈ kv.2 := by
      rw [hbucket, List.mem_filter]
      exact ⟨hie, by simp [hkvfst]⟩
    rcases hsm : smap (outletKey ie) with _ | src
    · rw [hko, hsm0] at hsm
      exact Option.noConfusion hsm
    · simp only [pass2Keep, hsm] at hpk
      simp only [perGroupKeep, hkvfst, hsm]
      rcases hcap : src.max_num_articles with _ | n
      · simp only [hcap]
        exact List.mem_map.mpr ⟨ie, hie_b, rfl⟩
      · simp only [hcap] at hpk
        simp only [hcap]
        refine List.mem_map.mpr ⟨ie, ?_, rfl⟩
        have hpk' := of_decide_eq_true hpk
        simp only [hkvfst] at hbucket
        rw [hbucket]
        exact hpk'

theorem prunePass2_eq (smap : String → Option NewsSource)
    (filtered : List RahtiEntry)
    (hcov : ∀ e ∈ filtered,
      ∃ o src, e.outlet = some o ∧ o ≠ "" ∧ smap o = some src) :
    prunePass2 smap filtered
      = (filtered.enum.filter (pass2Keep smap filtered.enum)).map
          Prod.snd := by
  rw [prunePass2]
  congr 1
  apply List.filter_congr
  intro ie hie
  have h := mem_keepIndices_iff smap filtered hcov ie hie
  by_cases hk : ie.1 ∈ keepIndices smap (groupByOutlet filtered.enum)
  · exact (decide_eq_true hk).trans (h.mp hk).symm
  · have hf : pass2Keep smap filtered.enum ie = false := by
      cases hpk : pass2Keep smap filtered.enum ie
      · rfl
      · exact absurd (h.mpr hpk) hk
    exact (decide_eq_false hk).trans hf.symm

/-! Claim C4: the second pass of `prune_rahti`. -/

/-- C4. On the survivors of pass 1, the second pass keeps an entry of a
capped outlet iff it is among the first `N` of the stable descending sort
(by `updated`, ties by original position) of that outlet's survivors,
keeps entries of uncapped outlets unconditionally, and emits survivors in
their original relative order (it is a filter of the pass-1 output). The
remaining conjuncts pin down the sort: it permutes its input, orders it by
descending `updated`, and breaks ties by original position. -/
theorem c4_prune_pass2 (now : Int) (sources : List NewsSource)
    (entries : List RahtiEntry) :
    (prunePass2 (sourceMap sources)
        (prunePass1 now (sourceMap sources) entries)
      = (((prunePass1 now (sourceMap sources) entries).enum).filter
          (pass2Keep (sourceMap sources)
            (prunePass1 now (sourceMap sources) entries).enum)).map
          Prod.snd)
    ∧ (∀ l : List (Nat × RahtiEntry),
        (pySortDescBy (fun ie => ie.2.updated) l).Perm l)
    ∧ (∀ l : List (Nat × RahtiEntry),
        (pySortDescBy (fun ie => ie.2.updated) l).Pairwise
          (fun a b => b.2.updated ≤ a.2.updated))
    ∧ (∀ l : List (Nat × RahtiEntry),
        l.Pairwise (fun a b => a.1 < b.1) →
        (pySortDescBy (fun ie => ie.2.updated) l).Pairwise
          (fun a b => b.2.updated < a.2.updated ∨
            (b.2.updated = a.2.updated ∧ a.1 < b.1))) := by
  refine ⟨?_, ?_, ?_, ?_⟩
  · exact prunePass2_eq (sourceMap sources) _
      (prunePass1_covered now (sourceMap sources) entries)
  · exact fun l => pySortDescBy_perm _ l
  · exact fun l => pySortDescBy_sorted _ l
  · exact fun l h => pySortDescBy_stable _ Prod.fst l h

/-- C4 witness: the pass-2 equation on a capped outlet with three entries
(two tied), plus the sort's stability at that concrete indexed list. -/
theorem c4_prune_pass2_witness :
    (prunePass2 (sourceMap c4Srcs)
        (prunePass1 0 (sourceMap c4Srcs) c4Entries)
      = (((prunePass1 0 (sourceMap c4Srcs) c4Entries).enum).filter
          (pass2Keep (sourceMap c4Srcs)
            (prunePass1 0 (sourceMap c4Srcs) c4Entries).enum)).map
          Prod.snd)
    ∧ (pySortDescBy (fun ie => ie.2.updated) c4Entries.enum).Pairwise
        (fun a b => b.2.updated < a.2.updated ∨
          (b.2.updated = a.2.updated ∧ a.1 < b.1)) :=
  ⟨(c4_prune_pass2 0 c4Srcs c4Entries).1,
   (c4_prune_pass2 0 c4Srcs c4Entries).2.2.2 c4Entries.enum (by decide)⟩

/-- C10 witness: the amended statement applied at a concrete state. -/
theorem c10_dataset_updated_witness :
    let eOld : RahtiEntry :=
      { updated := 5, urls := [⟨"a", []⟩], title := "T",
        clickbaitiness := .low, labels := [], outlet := none }
    let d : RahtiData := { updated := 0, entries := [eOld] }
    let n : RahtiEntry :=
      { updated := 1, urls := [⟨"a", []⟩], title := "U",
        clickbaitiness := .low, labels := [], outlet := none }
    ((mkCleaner d).replace n).1.rahti.updated
      = max (mkCleaner d).rahti.updated
          (max n.updated ((mkCleaner d).rahti.entries.getD 0 default).updated) := by
  exact (c10_dataset_updated _ _).2.1 0 (by decide)

/-! Claim C5: failure isolation in the bounded-concurrency phases. -/

theorem fetchLatestPhase_acc {σ α ε : Type}
    (l : List (σ × PyResult ε (List α))) (acc : List (σ × α)) :
    l.foldl
      (fun acc so =>
        match so.2 with
        | .ok arts => acc ++ arts.map (fun a => (so.1, a))
        | .raised _ => acc)
      acc
    = acc ++ fetchLatestPhase l := by
  induction l generalizing acc with
  | nil => simp [fetchLatestPhase]
  | cons so rest ih =>
      obtain ⟨s, r⟩ := so
      rcases r with a | e
      · rw [List.foldl_cons]
        simp only
        rw [ih, show fetchLatestPhase ((s, PyResult.ok a) :: rest)
            = a.map (fun x => (s, x)) ++ fetchLatestPhase rest by
          rw [fetchLatestPhase, List.foldl_cons]
          simp only
          rw [show ([] : List (σ × α)) ++ a.map (fun x => (s, x))
              = a.map (fun x => (s, x)) from by simp]
          exact ih _]
        rw [List.append_assoc]
      · rw [List.foldl_cons]
        simp only
        rw [ih, show fetchLatestPhase ((s, PyResult.raised e) :: rest)
            = fetchLatestPhase rest from rfl]

theorem fetchLatestPhase_append {σ α ε : Type}
    (a b : List (σ × PyResult ε (List α))) :
    fetchLatestPhase (a ++ b)
      = fetchLatestPhase a ++ fetchLatestPhase b := by
  rw [fetchLatestPhase, List.foldl_append]
  exact fetchLatestPhase_acc b _

theorem fetchFullPhase_acc {α ε : Type} (l : List (PyResult ε α))
    (acc : List α) :
    l.foldl
      (fun acc r =>
        match r with
        | .ok a => acc ++ [a]
        | .raised _ => acc)
      acc
    = acc ++ fetchFullPhase l := by
  induction l generalizing acc with
  | nil => simp [fetchFullPhase]
  | cons r rest ih =>
      rcases r with a | e
      · rw [List.foldl_cons]
        simp only
        rw [ih, show fetchFullPhase (PyResult.ok a :: rest)
            = [a] ++ fetchFullPhase rest by
          rw [fetchFullPhase, List.foldl_cons]
          simp only
          rw [show ([] : List α) ++ [a] = [a] from by simp]
          exact ih _]
        rw [List.append_assoc]
      · rw [List.foldl_cons]
        simp only
        rw [ih, show fetchFullPhase (PyResult.raised e :: rest)
            = fetchFullPhase rest from rfl]

theorem fetchFullPhase_append {α ε : Type} (a b : List (PyResult ε α)) :
    fetchFullPhase (a ++ b) = fetchFullPhase a ++ fetchFullPhase b := by
  rw [fetchFullPhase, List.foldl_append]
  exact fetchFullPhase_acc b _

/-- C5 counterexample. In the title-generation phase an item's exception
is not caught: with outcomes [ok 1, raised "boom", ok 3] the phase
propagates the exception instead of returning [1, 3] with the failing
item dropped, refuting the claim for that phase. -/
theorem c5_counterexample :
    generateTitlesPhase ([PyResult.ok 1, PyResult.raised "boom",
        PyResult.ok 3] : List (PyResult String Nat))
      = PyResult.raised "boom"
    ∧ generateTitlesPhase ([PyResult.ok 1, PyResult.raised "boom",
        PyResult.ok 3] : List (PyResult String Nat))
      ≠ PyResult.ok [1, 3] := by
  decide

/-- C5 (amended). The discovery and full-content fetch phases isolate
failures: an item whose worker raises is dropped and every other item's
results are still returned (and no exception can escape — the phases are
total functions into plain lists). The title-generation phase does not:
when every item succeeds it returns all results, but the first raised
exception in submission order propagates to the caller. -/
theorem c5_failure_isolation {σ α ε : Type} :
    (∀ (l1 l2 : List (σ × PyResult ε (List α))) (s : σ) (e : ε),
      fetchLatestPhase (l1 ++ (s, PyResult.raised e) :: l2)
        = fetchLatestPhase l1 ++ fetchLatestPhase l2)
    ∧ (∀ (l1 l2 : List (PyResult ε α)) (e : ε),
      fetchFullPhase (l1 ++ PyResult.raised e :: l2)
        = fetchFullPhase l1 ++ fetchFullPhase l2)
    ∧ (∀ vals : List α,
      generateTitlesPhase ((vals.map PyResult.ok : List (PyResult ε α)))
        = PyResult.ok vals)
    ∧ (∀ (vals : List α) (e : ε) (l2 : List (PyResult ε α)),
      generateTitlesPhase (vals.map PyResult.ok ++ PyResult.raised e :: l2)
        = PyResult.raised e) := by
  refine ⟨?_, ?_, ?_, ?_⟩
  · intro l1 l2 s e
    rw [show l1 ++ (s, PyResult.raised e) :: l2
        = (l1 ++ [(s, PyResult.raised e)]) ++ l2 by simp]
    rw [fetchLatestPhase_append, fetchLatestPhase_append]
    rw [show fetchLatestPhase [(s, PyResult.raised (α := List α) e)]
        = [] from rfl]
    rw [List.append_nil]
  · intro l1 l2 e
    rw [show l1 ++ PyResult.raised e :: l2
        = (l1 ++ [PyResult.raised e]) ++ l2 by simp]
    rw [fetchFullPhase_append, fetchFullPhase_append]
    rw [show fetchFullPhase [PyResult.raised (α := α) e] = [] from rfl]
    rw [List.append_nil]
  · intro vals
    induction vals with
    | nil => rfl
    | cons v rest ih =>
        rw [List.map_cons]
        rw [generateTitlesPhase, ih]
  · intro vals e l2
    induction vals with
    | nil => rfl
    | cons v rest ih =>
        rw [List.map_cons, List.cons_append]
        rw [generateTitlesPhase, ih]

/-! Claim C6: the derived URL signature. -/

/-- C6 counterexample. When the hasher raises, the computed `signature`
property re-raises (the `except` branch of `hash_url` logs and then
executes a bare `raise`): computing the signature is not exception-free. -/
theorem c6_counterexample :
    (signature alwaysRaise (some "http://x")).isOk = false
    ∧ signature alwaysRaise (some "http://x") = PyResult.raised () := by
  decide

/-- C6 (amended). With an absent href the signature is the empty string;
when the hasher returns `None` or an empty signature the result is the
empty string; a non-empty hash is returned as is; but an exception raised
by the hasher propagates out of the signature computation instead of
yielding the empty string. Provided no persisted URL signature is empty,
a URL with an empty signature cannot participate in matching: dropping
empty-signature URLs from an article does not change the matched entry. -/
theorem c6_signature {ε : Type}
    (hasher : String → PyResult ε (Option String)) (u : String) (e : ε)
    (d : RahtiData) (a : Article) :
    (signature hasher none = PyResult.ok "")
    ∧ (hasher u.trim = PyResult.ok none →
        signature hasher (some u) = PyResult.ok "")
    ∧ (hasher u.trim = PyResult.ok (some "") →
        signature hasher (some u) = PyResult.ok "")
    ∧ (∀ s, hasher u.trim = PyResult.ok (some s) → s ≠ "" →
        signature hasher (some u) = PyResult.ok s)
    ∧ (hasher u.trim = PyResult.raised e →
        signature hasher (some u) = PyResult.raised e)
    ∧ ((∀ en ∈ d.entries, ∀ ru ∈ en.urls, ru.sign ≠ "") →
        (mkCleaner d).findByArticle a
          = (mkCleaner d).findByArticle
              { a with urls :=
                  a.urls.filter (fun x => decide (x.signature ≠ "")) }) := by
  refine ⟨rfl, ?_, ?_, ?_, ?_, ?_⟩
  · intro h
    rw [signature, hashUrl, h]
  · intro h
    rw [signature, hashUrl, h]
    rfl
  · intro s h hs
    rw [signature, hashUrl, h]
    simp [hs]
  · intro h
    rw [signature, hashUrl, h]
  · intro hne
    have hmap : buildMap d.entries "" = none :=
      (buildMap_eq_none _ _).mpr (fun en hen ru hru => hne en hen ru hru)
    rw [RahtiCleaner.findByArticle, RahtiCleaner.findByArticle]
    congr 1
    show a.urls.findSome? (fun x => buildMap d.entries x.signature)
      = (a.urls.filter (fun x => decide (x.signature ≠ ""))).findSome?
          (fun x => buildMap d.entries x.signature)
    induction a.urls with
    | nil => rfl
    | cons u0 rest ih =>
        rw [List.filter_cons]
        by_cases h0 : u0.signature = ""
        · rw [List.findSome?_cons]
          rw [h0, hmap]
          rw [if_neg (by simp [h0])]
          exact ih
        · rw [if_pos (by simp [h0])]
          rw [List.findSome?_cons, List.findSome?_cons]
          rcases hf : buildMap d.entries u0.signature with _ | i
          · exact ih
          · rfl

/-- C6 witness: the amended statement applied at concrete inputs — a
total hasher yields the hash of the stripped href, the always-raising
hasher propagates, and on the concrete dataset (signature "abc") an
article keeps the same match after its empty-signature URL is dropped. -/
theorem c6_signature_witness :
    signature hashFix (some "http://x") = PyResult.ok "hx"
    ∧ signature alwaysRaise (some "http://x") = PyResult.raised ()
    ∧ (mkCleaner c2Data).findByArticle
        { urls := [⟨""⟩, ⟨"abc"⟩], created_at := none, updated_at := none }
      = (mkCleaner c2Data).findByArticle
          { urls := ([⟨""⟩, ⟨"abc"⟩] : List ArticleUrl).filter
              (fun x => decide (x.signature ≠ "")),
            created_at := none, updated_at := none } := by
  refine ⟨?_, ?_, ?_⟩
  · exact (c6_signature hashFix "http://x" () c2Data
      { urls := [], created_at := none, updated_at := none }).2.2.2.1
      "hx" (by decide) (by decide)
  · exact (c6_signature alwaysRaise "http://x" () c2Data
      { urls := [], created_at := none, updated_at := none }).2.2.2.2.1
      (by decide)
  · exact (c6_signature hashFix "http://x" () c2Data
      { urls := [⟨""⟩, ⟨"abc"⟩], created_at := none,
        updated_at := none }).2.2.2.2.2 (by decide)

/-! Claim C7: serialization round trip. -/

theorem linkLabel_roundtrip (l : LinkLabel) :
    linkLabelOfWire l.toWire = some l := by
  cases l <;> decide

theorem clickbait_roundtrip (c : ClickbaitScale) :
    clickbaitOfWire c.toWire = some c := by
  cases c <;> decide

theorem entryLabel_roundtrip (l : EntryLabel) :
    entryLabelOfWire l.toWire = some l := by
  rcases l with a | b
  · cases a <;> decide
  · cases b <;> decide

theorem mapOpt_map_roundtrip {α β : Type} (f : α → β) (g : β → Option α)
    (v : List α) (h : ∀ x ∈ v, g (f x) = some x) :
    mapOpt g (v.map f) = some v := by
  induction v with
  | nil => rfl
  | cons x rest ih =>
      rw [List.map_cons, mapOpt, h x (List.mem_cons_self _ _),
        ih (fun y hy => h y (List.mem_cons_of_mem _ hy))]

theorem dedupBySign_sublist (l : List RahtiUrl) (seen : List String) :
    (dedupBySign seen l).Sublist l := by
  induction l generalizing seen with
  | nil => exact List.Sublist.refl _
  | cons u rest ih =>
      rw [dedupBySign]
      by_cases hu : u.sign ∈ seen
      · rw [if_pos hu]
        exact (ih seen).cons u
      · rw [if_neg hu]
        exact (ih (u.sign :: seen)).cons₂ u

theorem dedupBySign_spec (l : List RahtiUrl) (seen : List String) :
    ((dedupBySign seen l).map RahtiUrl.sign).Nodup
    ∧ ∀ u ∈ dedupBySign seen l, u.sign ∉ seen := by
  induction l generalizing seen with
  | nil => exact ⟨List.nodup_nil, by simp [dedupBySign]⟩
  | cons u rest ih =>
      rw [dedupBySign]
      by_cases hu : u.sign ∈ seen
      · rw [if_pos hu]
        exact ih seen
      · rw [if_neg hu]
        rcases ih (u.sign :: seen) with ⟨h1, h2⟩
        refine ⟨?_, ?_⟩
        · rw [List.map_cons, List.nodup_cons]
          refine ⟨?_, h1⟩
          intro hc
          rcases List.mem_map.mp hc with ⟨v, hv, hvs⟩
          refine h2 v hv ?_
          rw [hvs]
          exact List.mem_cons_self _ _
        · intro v hv
          rcases List.mem_cons.mp hv with rfl | hv'
          · exact hu
          · intro hc
            exact h2 v hv' (List.mem_cons_of_mem _ hc)

theorem dedupBySign_id (l : List RahtiUrl) (seen : List String)
    (hnd : (l.map RahtiUrl.sign).Nodup) (hdis : ∀ u ∈ l, u.sign ∉ seen) :
    dedupBySign seen l = l := by
  induction l generalizing seen with
  | nil => rfl
  | cons u rest ih =>
      rw [List.map_cons, List.nodup_cons] at hnd
      rw [dedupBySign,
        if_neg (hdis u (List.mem_cons_self _ _))]
      congr 1
      refine ih (u.sign :: seen) hnd.2 ?_
      intro v hv
      intro hc
      rcases List.mem_cons.mp hc with hc' | hc'
      · exact hnd.1 (hc' ▸ List.mem_map.mpr ⟨v, hv, rfl⟩)
      · exact hdis v (List.mem_cons_of_mem _ hv) hc'

theorem check_urls_unique_sorted (v : List RahtiUrl) :
    (check_urls_unique v).Pairwise
      (fun a b => b.labels.length ≤ a.labels.length) := by
  rw [check_urls_unique]
  exact List.Pairwise.sublist (dedupBySign_sublist _ _)
    (pySortDescBy_sorted _ v)

theorem check_urls_unique_nodup (v : List RahtiUrl) :
    ((check_urls_unique v).map RahtiUrl.sign).Nodup :=
  (dedupBySign_spec _ _).1

theorem check_urls_unique_idem (v : List RahtiUrl) :
    check_urls_unique (check_urls_unique v) = check_urls_unique v := by
  have hs := check_urls_unique_sorted v
  have hn := check_urls_unique_nodup v
  rw [show check_urls_unique (check_urls_unique v)
      = dedupBySign []
          (pySortDescBy (fun u => u.labels.length)
            (check_urls_unique v)) from rfl]
  rw [pySortDescBy_of_sorted _ _ hs]
  exact dedupBySign_id _ _ hn (by simp)

theorem modelValidateUrl_roundtrip (u : RahtiUrl) :
    modelValidateUrl u.modelDump = some u := by
  rw [RahtiUrl.modelDump, modelValidateUrl]
  simp only
  rw [mapOpt_map_roundtrip _ _ u.labels
    (fun x _ => linkLabel_roundtrip x)]
  rfl

theorem modelValidateEntry_roundtrip (e : RahtiEntry)
    (hfix : check_urls_unique e.urls = e.urls) :
    modelValidateEntry e.modelDump = some e := by
  rw [RahtiEntry.modelDump, modelValidateEntry]
  simp only
  rw [mapOpt_map_roundtrip _ _ e.urls
      (fun x _ => modelValidateUrl_roundtrip x),
    clickbait_roundtrip,
    mapOpt_map_roundtrip _ _ e.labels
      (fun x _ => entryLabel_roundtrip x)]
  simp only
  rw [hfix]

/-- C7. Serializing a dataset value, deserializing the result and
serializing again yields the same wire document (hence the same bytes):
deserialization succeeds and reproduces the value exactly. A dataset
value is a constructed `RahtiData`, i.e. every entry has passed the
`check_urls_unique` validator (`normalizeData`); for such values no
entry's URL list contains two URLs with the same signature — the claim's
hypothesis — which the second conjunct records. -/
theorem c7_serialize_roundtrip (d : RahtiData) :
    (modelValidateData ((normalizeData d).modelDump)).map
        RahtiData.modelDump
      = some ((normalizeData d).modelDump)
    ∧ ∀ e ∈ (normalizeData d).entries,
        ((e.urls.map RahtiUrl.sign).Nodup) := by
  have hval : modelValidateData ((normalizeData d).modelDump)
      = some (normalizeData d) := by
    rw [RahtiData.modelDump, modelValidateData]
    rw [if_pos ⟨rfl, rfl⟩]
    simp only
    rw [mapOpt_map_roundtrip _ _ (normalizeData d).entries ?_]
    · rfl
    · intro e he
      rcases List.mem_map.mp he with ⟨e0, _, rfl⟩
      exact modelValidateEntry_roundtrip _ (check_urls_unique_idem _)
  refine ⟨by rw [hval]; rfl, ?_⟩
  intro e he
  rcases List.mem_map.mp he with ⟨e0, _, rfl⟩
  exact check_urls_unique_nodup _

/-! Claim C8: registry resolution. -/

theorem find?_congr_mem {α : Type} {p q : α → Bool} :
    ∀ l : List α, (∀ x ∈ l, p x = q x) → l.find? p = l.find? q := by
  intro l
  induction l with
  | nil => intro _; rfl
  | cons a rest ih =>
      intro h
      rw [List.find?_cons, List.find?_cons, h a (List.mem_cons_self _ _),
        ih (fun x hx => h x (List.mem_cons_of_mem _ hx))]

theorem pySort_head_firstMax (l : List (Int × Nat)) :
    (pySortDescBy Prod.fst l).head? = firstMaxPair l := by
  induction l using List.reverseRecOn with
  | nil => rfl
  | append_singleton xs x ih =>
      rw [pySortDescBy_concat]
      rcases hs : pySortDescBy Prod.fst xs with _ | ⟨y, rest⟩
      · have hperm := pySortDescBy_perm Prod.fst xs
        rw [hs] at hperm
        have hxs : xs = [] := hperm.symm.eq_nil
        subst hxs
        simp [insertDescBy, firstMaxPair]
      · have hperm := pySortDescBy_perm Prod.fst xs
        rw [hs] at hperm
        have hy_mem : y ∈ xs := hperm.mem_iff.mp (List.mem_cons_self _ _)
        have hsorted := pySortDescBy_sorted Prod.fst xs
        rw [hs] at hsorted
        have hy_up : ∀ z ∈ xs, z.1 ≤ y.1 := by
          intro z hz
          rcases List.mem_cons.mp (hperm.mem_iff.mpr hz) with rfl | hz'
          · exact le_refl _
          · exact (List.pairwise_cons.mp hsorted).1 z hz'
        rw [firstMaxPair]
        by_cases hxy : x.1 ≤ y.1
        · rw [show insertDescBy Prod.fst x (y :: rest)
              = y :: insertDescBy Prod.fst x rest from by
            rw [insertDescBy, if_pos hxy]]
          rw [List.find?_append]
          have hfind_eq :
              List.find? (fun wc => (xs ++ [x]).all
                  (fun wc2 => decide (wc2.1 ≤ wc.1))) xs
                = List.find? (fun wc => xs.all
                  (fun wc2 => decide (wc2.1 ≤ wc.1))) xs := by
            apply find?_congr_mem
            intro z hz
            rw [List.all_append]
            cases hall : xs.all (fun wc2 => decide (wc2.1 ≤ z.1))
            · rfl
            · have hyz : y.1 ≤ z.1 :=
                of_decide_eq_true (List.all_eq_true.mp hall y hy_mem)
              have hxz : x.1 ≤ z.1 := le_trans hxy hyz
              simp [hxz]
          have hfx : List.find?
              (fun wc => xs.all fun wc2 => decide (wc2.1 ≤ wc.1)) xs
              = some y := by
            have hih := ih
            rw [hs] at hih
            rw [firstMaxPair] at hih
            exact hih.symm
          rw [hfind_eq, hfx]
          rfl
        · rw [show insertDescBy Prod.fst x (y :: rest)
              = x :: y :: rest from by rw [insertDescBy, if_neg hxy]]
          rw [List.find?_append]
          have hnone : List.find? (fun wc => (xs ++ [x]).all
              fun wc2 => decide (wc2.1 ≤ wc.1)) xs = none := by
            rw [List.find?_eq_none]
            intro z hz
            rw [List.all_append]
            simp only [Bool.and_eq_true, not_and]
            intro _
            have hzx : ¬ (x.1 ≤ z.1) :=
              fun hc => hxy (le_trans hc (hy_up z hz))
            simp [hzx]
          rw [hnone]
          have hpx : ((xs ++ [x]).all
              fun wc2 => decide (wc2.1 ≤ x.1)) = true := by
            rw [List.all_append]
            simp only [Bool.and_eq_true]
            refine ⟨List.all_eq_true.mpr ?_, by simp⟩
            intro z hz
            exact decide_eq_true
              (le_trans (hy_up z hz) (le_of_lt (not_le.mp hxy)))
          rw [List.find?_singleton, if_pos hpx]
          rfl

theorem regsFor_concat (evs : List RegEvent) (ev : RegEvent)
    (k : String) :
    regsFor (evs ++ [ev]) k
      = regsFor evs k
        ++ (if ev.name = k then [(ev.weight, ev.cls)] else []) := by
  rw [regsFor, regsFor, List.filterMap_append]
  congr 1
  by_cases h : ev.name = k
  · simp [List.filterMap_cons, h]
  · simp [List.filterMap_cons, h]

theorem applyEvents_sorted (evs : List RegEvent) (k : String)
    (hnd : ((regsFor evs k).map Prod.snd).Nodup) :
    applyEvents evs k = pySortDescBy Prod.fst (regsFor evs k) := by
  induction evs using List.reverseRecOn with
  | nil => rfl
  | append_singleton evs ev ih =>
      have happ : applyEvents (evs ++ [ev])
          = registerStep (applyEvents evs) ev := by
        rw [applyEvents, applyEvents, List.foldl_concat]
      rw [regsFor_concat] at hnd ⊢
      by_cases hk : ev.name = k
      · subst hk
        rw [if_pos rfl] at hnd ⊢
        rw [List.map_append, List.nodup_append] at hnd
        obtain ⟨hnd1, _, hdisj⟩ := hnd
        have ihv := ih hnd1
        have hcnot : ev.cls ∉ (regsFor evs ev.name).map Prod.snd := by
          intro hc
          exact hdisj hc (by simp)
        rw [happ, registerStep]
        simp only [if_pos rfl]
        rw [ihv]
        have hmem : ev.cls ∈ (pySortDescBy Prod.fst
              (regsFor evs ev.name)).map Prod.snd
            ↔ ev.cls ∈ (regsFor evs ev.name).map Prod.snd :=
          ((pySortDescBy_perm Prod.fst _).map Prod.snd).mem_iff
        rw [if_neg (fun hc => hcnot (hmem.mp hc))]
        rw [pySortDescBy_concat, pySortDescBy_concat,
          pySortDescBy_of_sorted Prod.fst _
            (pySortDescBy_sorted Prod.fst _)]
        simp
      · have hkk : ¬ (k = ev.name) := fun hc => hk hc.symm
        rw [if_neg hk] at hnd ⊢
        rw [List.append_nil] at hnd ⊢
        rw [happ, registerStep]
        simp only []
        rw [if_neg hkk]
        exact ih hnd

/-- C8 counterexample. After registering class 1 at weight 50, class 2 at
weight 60 and then re-registering class 1 at weight 60 (all under key
"k"), both classes end with the highest weight 60; class 1 was registered
first under the key, yet `get` returns class 2: the weight-update path
re-sorts from the current bucket order, so "first registered wins" fails
when a re-registration creates the tie. -/
theorem c8_counterexample :
    registryGet
        (applyEvents [⟨"k", 50, 1⟩, ⟨"k", 60, 2⟩, ⟨"k", 60, 1⟩]) "k"
      = some 2
    ∧ claimResolve [⟨"k", 50, 1⟩, ⟨"k", 60, 2⟩, ⟨"k", 60, 1⟩] "k"
      = some 1
    ∧ (2 : Nat) ≠ 1 := by
  refine ⟨?_, by decide, by decide⟩
  decide

/-- C8 (amended). For every registration sequence in which no handler
class is registered twice under the key, `get` returns the handler with
the highest weight among those registered under the key, ties broken by
registration order — the first registered wins, regardless of how other
keys' registrations are interleaved. -/
theorem c8_registry_get (evs : List RegEvent) (k : String)
    (hnd : ((regsFor evs k).map Prod.snd).Nodup) :
    registryGet (applyEvents evs) k = firstMaxClass (regsFor evs k) := by
  rw [registryGet, applyEvents_sorted evs k hnd, firstMaxClass,
    pySort_head_firstMax]

/-- C8 witness: three registrations under "rss" (weights 50, 80 and a tie
at 80 for a third class) and one under "atom": resolution picks the first
class that reached the top weight 80. -/
theorem c8_registry_get_witness :
    registryGet (applyEvents [⟨"rss", 50, 1⟩, ⟨"rss", 80, 2⟩,
        ⟨"atom", 50, 3⟩, ⟨"rss", 80, 4⟩]) "rss"
      = firstMaxClass (regsFor [⟨"rss", 50, 1⟩, ⟨"rss", 80, 2⟩,
        ⟨"atom", 50, 3⟩, ⟨"rss", 80, 4⟩] "rss")
    ∧ firstMaxClass (regsFor [⟨"rss", 50, 1⟩, ⟨"rss", 80, 2⟩,
        ⟨"atom", 50, 3⟩, ⟨"rss", 80, 4⟩] "rss") = some 2 := by
  refine ⟨c8_registry_get _ "rss" (by decide), by decide⟩

/-! Claim C9: behavior of the run on an empty admitted set. -/

/-- C9 counterexample. A run whose admission filter leaves no candidate
articles (here: no discovered articles at all, one stored entry) still
invokes the persisted store's push: `run` calls `store_results`
unconditionally — there is no early-termination branch. -/
theorem c9_counterexample :
    filterOutdated id []
        [{ signs := ["s"], updated := 5, title := "t" }] = []
    ∧ (runMain id id (fun _ => ⟨"T"⟩) 6 []
        [{ signs := ["s"], updated := 5, title := "t" }]).pushCalled
      = true := by
  decide

/-- C9 (amended). When the admission filter (`filter_outdated`) leaves an
empty candidate set, the run performs zero per-article title predictions
(the title collaborator is never invoked for an article), but it does not
terminate early: the push to the persisted store is still invoked, with
exactly the age-pruned old entries (merging an empty new-entry list is
the identity). -/
theorem c9_run_empty_candidates (h : String → String)
    (extract : ArticleO → ArticleO) (titleOf : ArticleO → TitleO)
    (now : Time) (articles : List ArticleO) (oldEntries : List EntryO)
    (hempty : filterOutdated h articles oldEntries = []) :
    (runMain h extract titleOf now articles oldEntries).titleCalls = 0
    ∧ (runMain h extract titleOf now articles oldEntries).pushCalled
      = true
    ∧ (runMain h extract titleOf now articles oldEntries).pushedEntries
      = pruneOldEntries now oldEntries 3 := by
  rw [runMain]
  simp only [hempty]
  exact ⟨rfl, trivial, rfl⟩

/-- C9 witness: the amended statement at the counterexample's input. -/
theorem c9_run_empty_candidates_witness :
    (runMain id id (fun _ => ⟨"T"⟩) 6 []
        [{ signs := ["s"], updated := 5, title := "t" }]).titleCalls = 0
    ∧ (runMain id id (fun _ => ⟨"T"⟩) 6 []
        [{ signs := ["s"], updated := 5, title := "t" }]).pushCalled
      = true
    ∧ (runMain id id (fun _ => ⟨"T"⟩) 6 []
        [{ signs := ["s"], updated := 5, title := "t" }]).pushedEntries
      = pruneOldEntries 6
          [{ signs := ["s"], updated := 5, title := "t" }] 3 :=
  c9_run_empty_candidates id id (fun _ => ⟨"T"⟩) 6 []
    [{ signs := ["s"], updated := 5, title := "t" }] (by decide)

end Meri
